import Mathlib

/-!
# jwt-performance: the token generator `cmd/jwtgen/generator.go`

A shallow embedding of the generator and a verification of its specification.

* Go `int` values are `Int` where the source can see a negative number (`count`, `n`)
  and `Nat` past the guards that exclude one; every quantity computed by the
  code lies between `0` and `count`, so machine overflow never comes into play.
* A Go `(value, error)` pair is an `Except`, a `nil` slice is `none`, a panic
  (division by zero, index out of range, negative `make`) is `none` at the
  level of the whole call.
* The goroutines of `generateTokens` are a transition system: the spawning
  loop of the main goroutine and one loop iteration of a worker are the atomic
  actions, and a scheduler picks, at every instant, one of the enabled actions.
  Every statement about `generateTokens` is made for every scheduler. Within an
  iteration the call of the producer and the write or `errOnce.Do` that follows
  are one step, so when several calls fail the error kept is that of the first
  failed call; no statement below depends on which error is kept.
* The producer `genFn` is a state transformer `σ → Except ε String × σ`: a call
  reads and updates whatever the closure shares between calls (a counter, the
  random generator) in one atomic step.
-/

namespace JwtGen

/-! ## Random strings and claims -/

/-- The claims record `Claims` of the source. -/
structure Claims where
  Sub : String
  Iat : Int
  Rnd : String
deriving DecidableEq, Repr

/-- The constant `randLen`. -/
def randLen : Int := 16

/-- The table `letters`, a slice of runes. -/
def letters : List Char :=
  "abcdefghijklmnopqrstuvwxyzABCDEFGHIJKLMNOPQRSTUVWXYZ0123456789".toList

/-- The loop `for i := 0; i < n; i++ { b[i] = letters[rng.Intn(len(letters))] }` of
`randString`, with `k` iterations left. The generator is the parameter `intn`
(`rng.Intn`) acting on its state `ρ`. Indexing `letters` out of range panics. -/
def randStringLoop {ρ : Type} (intn : Nat → ρ → Nat × ρ) :
    Nat → Nat → List Char → ρ → Option (List Char × ρ)
  | 0, _, b, s => some (b, s)
  | k + 1, i, b, s =>
    match letters[(intn letters.length s).1]? with
    | none => none
    | some c => randStringLoop intn k (i + 1) (b.set i c) (intn letters.length s).2

/-- The function `randString`: `make([]rune, n)` panics for a negative `n`, the
loop fills the `n` slots, and `string(b)` encodes the runes. The mutex makes the
whole call one critical section, so it is one step on the generator state. -/
def randString {ρ : Type} (intn : Nat → ρ → Nat × ρ) (n : Int) (s : ρ) :
    Option (String × ρ) :=
  if n < 0 then none
  else
    match randStringLoop intn n.toNat 0 (List.replicate n.toNat (Char.ofNat 0)) s with
    | none => none
    | some (b, s') => some (String.mk b, s')

/-- A reading of the wall clock, as `time.Now()` gives it: seconds since the
unix epoch and the nanoseconds within the second. -/
structure Time where
  sec : Int
  nsec : Nat
deriving DecidableEq, Repr

/-- The method `Time.Unix`: the whole seconds of the reading. -/
def Time.Unix (t : Time) : Int := t.sec

/-- The function `baseClaims`: the clock is read first, then the fields of the
literal are evaluated in order, `Sub` before `Rnd`. -/
def baseClaims {ρ : Type} (intn : Nat → ρ → Nat × ρ) (clock : Time) (s : ρ) :
    Option (Claims × ρ) :=
  let now := clock.Unix
  match randString intn randLen s with
  | none => none
  | some (sub, s1) =>
    match randString intn randLen s1 with
    | none => none
    | some (rnd, s2) => some ({ Sub := sub, Iat := now, Rnd := rnd }, s2)

/-! ## Parallel generation -/

/-- One goroutine started by `generateTokens`: its arguments `s` and `e`, its
loop variable `idx`, and whether it has returned. -/
structure Worker where
  s : Nat
  e : Nat
  idx : Nat
  done : Bool
deriving DecidableEq, Repr

/-- One call of the producer, recorded for the specification: the worker that
made it, the index it was made for, and what it returned. -/
structure Call (ε : Type) where
  worker : Nat
  idx : Nat
  res : Except ε String

/-- The variables of one run of `generateTokens` past the `count <= 0` guard.
The field `calls` is a history variable: the producer calls in the order they
happened. -/
structure GenState (σ ε : Type) where
  i : Nat
  start : Nat
  tokens : List String
  firstErr : Option ε
  errOnce : Bool
  goroutines : List Worker
  prod : σ
  calls : List (Call ε)
  panicked : Bool

/-- The values fixed before the spawning loop: `workers`, `count`, `base`, `rem`. -/
structure GenParams where
  workers : Nat
  count : Nat
  base : Nat
  rem : Nat
deriving DecidableEq, Repr

/-- The atomic actions: one iteration of the spawning loop of the main
goroutine, or one iteration of the loop of worker `j`. -/
inductive Action where
  | spawn : Action
  | worker : Nat → Action
deriving DecidableEq, Repr

/-- The size `n` given to worker `i`: `n := base; if i < rem { n++ }`. -/
def shardSize (p : GenParams) (i : Nat) : Nat :=
  if i < p.rem then p.base + 1 else p.base

/-- One iteration of `for i := 0; i < workers; i++ { ... go func(s, e int) {...}(s, e) }`. -/
def spawnStep {σ ε : Type} (p : GenParams) (st : GenState σ ε) : GenState σ ε :=
  if st.i < p.workers then
    let n := shardSize p st.i
    let s := st.start
    let e := s + n
    { st with
      start := e
      goroutines := st.goroutines ++ [{ s := s, e := e, idx := s, done := false }]
      i := st.i + 1 }
  else st

/-- One iteration of the loop of worker `j`: the test `idx < e`, the call of
`genFn`, then either `errOnce.Do(...)` and `return`, or `tokens[idx] = tok` and
`idx++`. A failed loop test ends the goroutine. Writing outside `tokens` panics. -/
def workerStep {σ ε : Type} (genFn : σ → Except ε String × σ) (j : Nat)
    (st : GenState σ ε) : GenState σ ε :=
  match st.goroutines[j]? with
  | none => st
  | some w =>
    if w.done then st
    else if w.idx < w.e then
      match genFn st.prod with
      | (Except.error err, s') =>
        { st with
          prod := s'
          calls := st.calls ++ [{ worker := j, idx := w.idx, res := Except.error err }]
          firstErr := if st.errOnce then st.firstErr else some err
          errOnce := true
          goroutines := st.goroutines.set j { w with done := true } }
      | (Except.ok tok, s') =>
        if w.idx < st.tokens.length then
          { st with
            prod := s'
            calls := st.calls ++ [{ worker := j, idx := w.idx, res := Except.ok tok }]
            tokens := st.tokens.set w.idx tok
            goroutines := st.goroutines.set j { w with idx := w.idx + 1 } }
        else
          { st with
            prod := s'
            calls := st.calls ++ [{ worker := j, idx := w.idx, res := Except.ok tok }]
            panicked := true
            goroutines := st.goroutines.set j { w with done := true } }
    else { st with goroutines := st.goroutines.set j { w with done := true } }

/-- The effect of an action. -/
def step {σ ε : Type} (p : GenParams) (genFn : σ → Except ε String × σ)
    (a : Action) (st : GenState σ ε) : GenState σ ε :=
  match a with
  | Action.spawn => spawnStep p st
  | Action.worker j => workerStep genFn j st

/-- The goroutines that have not returned. -/
def running (gs : List Worker) : List Nat :=
  (List.range gs.length).filter (fun j =>
    match gs[j]? with
    | some w => !w.done
    | none => false)

/-- The actions that can happen next: the main goroutine spawns while
`i < workers`, a started worker runs until it returns. -/
def enabled {σ ε : Type} (p : GenParams) (st : GenState σ ε) : List Action :=
  (if st.i < p.workers then [Action.spawn] else []) ++
    (running st.goroutines).map Action.worker

/-- The run of the goroutines under a scheduler: at instant `t` the scheduler
value `sched t` selects one of the enabled actions; the run ends when none is
enabled, which is when `wg.Wait()` returns. -/
def exec {σ ε : Type} (p : GenParams) (genFn : σ → Except ε String × σ)
    (sched : Nat → Nat) : Nat → Nat → GenState σ ε → GenState σ ε
  | 0, _, st => st
  | fuel + 1, t, st =>
    match enabled p st with
    | [] => st
    | a :: as =>
      exec p genFn sched fuel (t + 1)
        (step p genFn ((a :: as).getD (sched t % (as.length + 1)) a) st)

/-- What `generateTokens` returns, with the history of the run: `tokens` is
`none` for a `nil` slice, `err` is `none` for a `nil` error, `prod` is the
producer state afterwards, `calls` the producer calls in order, `shards` the
ranges `(s, e)` of the workers in spawning order. -/
structure Outcome (σ ε : Type) where
  tokens : Option (List String)
  err : Option ε
  prod : σ
  calls : List (Call ε)
  shards : List (Nat × Nat)

/-- The state before the spawning loop. -/
def initState {σ ε : Type} (count : Nat) (s0 : σ) : GenState σ ε :=
  { i := 0
    start := 0
    tokens := List.replicate count ""
    firstErr := none
    errOnce := false
    goroutines := []
    prod := s0
    calls := []
    panicked := false }

/-- The return after `wg.Wait()`. -/
def finish {σ ε : Type} (st : GenState σ ε) : Outcome σ ε :=
  match st.firstErr with
  | some err =>
    { tokens := none, err := some err, prod := st.prod, calls := st.calls
      shards := st.goroutines.map (fun w => (w.s, w.e)) }
  | none =>
    { tokens := some st.tokens, err := none, prod := st.prod, calls := st.calls
      shards := st.goroutines.map (fun w => (w.s, w.e)) }

/-- The function `generateTokens`, with `numCPU` the value of `runtime.NumCPU()`
and `sched` the scheduler. The result is `none` when the call does not return
normally: a division by zero, a write outside `tokens`, or a run that has not
ended within the step budget. -/
def generateTokens {σ ε : Type} (numCPU : Nat) (count : Int)
    (genFn : σ → Except ε String × σ) (s0 : σ) (sched : Nat → Nat) :
    Option (Outcome σ ε) :=
  if count ≤ 0 then
    some { tokens := some [], err := none, prod := s0, calls := [], shards := [] }
  else
    let n := count.toNat
    let workers := if numCPU > n then n else numCPU
    if workers = 0 then none
    else
      let p : GenParams :=
        { workers := workers, count := n, base := n / workers, rem := n % workers }
      let st := exec p genFn sched (workers * (p.base + 3)) 0 (initState n s0)
      if st.panicked || !(enabled p st).isEmpty then none
      else some (finish st)

/-! ## Writing the tokens to a file

The packages `os`, `path/filepath` and `bufio` are outside the repository. The
file system is a small state machine with the documented effects of the calls
the source makes. A file or directory is the path string that names it, so the
model speaks of cleaned slash-separated paths, as `filepath.Dir` returns them;
the directories `.`, `/` and `..` are always there; links and permissions are
left out. Which system calls fail for a reason of the environment is recorded
as the list `faults` of the outcomes of the coming calls. -/

/-- The file system: the directories, the regular files with their contents,
and the outcomes of the coming system calls (`true`: the call fails). -/
structure FileSystem where
  dirs : List String
  files : List (String × String)
  faults : List Bool
deriving DecidableEq, Repr

/-- The error returned by `generateTokensToFile`: the error of the generation,
or the error of a system call. -/
inductive FileErr (ε : Type) where
  | generation : ε → FileErr ε
  | system : String → FileErr ε
deriving DecidableEq, Repr

/-- The outcome of the next system call, taken from the environment. -/
def FileSystem.fault (fs : FileSystem) : Bool × FileSystem :=
  match fs.faults with
  | [] => (false, fs)
  | b :: rest => (b, { fs with faults := rest })

/-- The content of the regular file at `path`, if there is one. -/
def FileSystem.readFile (fs : FileSystem) (path : String) : Option String :=
  (fs.files.find? (fun f => f.1 == path)).map (fun f => f.2)

/-- The files with the file at `path` replaced by one of content `content`. -/
def FileSystem.store (fs : FileSystem) (path content : String) : FileSystem :=
  { fs with files := (path, content) :: fs.files.filter (fun f => f.1 != path) }

/-- Whether `p` names a regular file. -/
def FileSystem.isFile (fs : FileSystem) (p : String) : Bool :=
  (fs.readFile p).isSome

/-- The path elements of `p`: the pieces between slashes, `acc` being the piece
under way. -/
def pathElems : List Char → List Char → List String
  | [], acc => if acc = [] then [] else [String.mk acc]
  | c :: cs, acc =>
    if c = '/' then (if acc = [] then pathElems cs [] else String.mk acc :: pathElems cs [])
    else pathElems cs (acc ++ [c])

/-- Whether `p` names a directory: one that has been made, or one that is
always there (`.`, `/`, and the paths made of `..` elements only). -/
def FileSystem.isDir (fs : FileSystem) (p : String) : Bool :=
  decide (p ∈ fs.dirs) || p == "." ||
    (p != "" && (pathElems p.data []).all (fun e => e == ".."))

/-- The parent that `os.MkdirAll` extracts from a path: trailing separators are
dropped, then the last element, then the separator before it. It is empty when
the path has one element. -/
def parentPath (p : String) : String :=
  String.mk
    (((p.data.reverse.dropWhile (fun c => c == '/')).dropWhile (fun c => c != '/')).drop 1).reverse

/-- The call `os.Mkdir(p, 0o755)`: it fails when the environment says so, when
`p` is empty or exists already, or when its parent is not a directory; otherwise
`p` is a directory afterwards. An empty parent is the current or the root
directory. -/
def Mkdir {ε : Type} (p : String) (fs : FileSystem) : Option (FileErr ε) × FileSystem :=
  match fs.fault with
  | (true, fs1) => (some (FileErr.system "mkdir"), fs1)
  | (false, fs1) =>
    if p == "" || fs1.isFile p || fs1.isDir p then (some (FileErr.system "mkdir"), fs1)
    else if parentPath p != "" && !fs1.isDir (parentPath p) then
      (some (FileErr.system "mkdir"), fs1)
    else (none, { fs1 with dirs := p :: fs1.dirs })

/-- The recursion of `os.MkdirAll`: a path that is a directory is left alone, a
path that is a regular file is an error, and otherwise the parent is made first
(when there is one) and then the path itself. The first argument bounds the
depth; every parent is shorter than its path, so `p.length + 1` is enough. -/
def mkdirAllAux {ε : Type} : Nat → String → FileSystem → Option (FileErr ε) × FileSystem
  | 0, _, fs => (some (FileErr.system "mkdir"), fs)
  | depth + 1, p, fs =>
    if fs.isDir p then (none, fs)
    else if fs.isFile p then (some (FileErr.system "mkdir"), fs)
    else if parentPath p != "" then
      match mkdirAllAux depth (parentPath p) fs with
      | (some e, fs1) => (some e, fs1)
      | (none, fs1) => Mkdir p fs1
    else Mkdir p fs

/-- The call `os.MkdirAll(dir, 0o755)`: the missing ancestors of `dir` are made
from the outermost inwards, then `dir`; it fails when one of them is a regular
file or cannot be made, leaving the ancestors made so far. -/
def MkdirAll {ε : Type} (dir : String) (fs : FileSystem) : Option (FileErr ε) × FileSystem :=
  mkdirAllAux (dir.length + 1) dir fs

/-- The call `os.Create(path)`: it fails when the environment says so, when the
parent directory `dir` is missing, when `path` is empty or when `path` is a
directory; otherwise the file exists afterwards and is empty. -/
def Create {ε : Type} (dir path : String) (fs : FileSystem) :
    Option (FileErr ε) × FileSystem :=
  match fs.fault with
  | (true, fs1) => (some (FileErr.system "open"), fs1)
  | (false, fs1) =>
    if fs1.isDir dir ∧ path ≠ "" ∧ ¬ fs1.isDir path then (none, fs1.store path "")
    else (some (FileErr.system "open"), fs1)

/-- The call `f.Write` on the file created at `path`, whose offset is the end of
what has been written: on success the data are appended. -/
def Write {ε : Type} (path data : String) (fs : FileSystem) :
    Option (FileErr ε) × FileSystem :=
  match fs.fault with
  | (true, fs1) => (some (FileErr.system "write"), fs1)
  | (false, fs1) =>
    match fs1.readFile path with
    | none => (some (FileErr.system "write"), fs1)
    | some content => (none, fs1.store path (content ++ data))

/-- The default buffer size of `bufio.NewWriter`. -/
def bufSize : Nat := 4096

/-- A `bufio.Writer` on the file at `path`: the bytes accepted and not yet
written to the file. -/
structure Writer where
  path : String
  buf : String
deriving DecidableEq, Repr

/-- The method `Flush`: the pending bytes are written to the file; with nothing
pending no system call is made. -/
def Writer.Flush {ε : Type} (w : Writer) (fs : FileSystem) :
    Option (FileErr ε) × Writer × FileSystem :=
  if w.buf = "" then (none, w, fs)
  else
    match Write w.path w.buf fs with
    | (some e, fs1) => (some e, w, fs1)
    | (none, fs1) => (none, { w with buf := "" }, fs1)

/-- The method `WriteString`: the bytes join the pending ones, which are written
to the file once they fill the buffer. -/
def Writer.WriteString {ε : Type} (w : Writer) (s : String) (fs : FileSystem) :
    Option (FileErr ε) × Writer × FileSystem :=
  if (w.buf ++ s).utf8ByteSize < bufSize then (none, { w with buf := w.buf ++ s }, fs)
  else Writer.Flush { w with buf := w.buf ++ s } fs

/-- The method `WriteByte`. -/
def Writer.WriteByte {ε : Type} (w : Writer) (c : Char) (fs : FileSystem) :
    Option (FileErr ε) × Writer × FileSystem :=
  Writer.WriteString w (String.singleton c) fs

/-- The loop `for _, tok := range tokens { w.WriteString(tok); w.WriteByte('\n') }`
of `generateTokensToFile`, which returns at the first error. -/
def writeTokens {ε : Type} : List String → Writer → FileSystem →
    Option (FileErr ε) × Writer × FileSystem
  | [], w, fs => (none, w, fs)
  | tok :: rest, w, fs =>
    match Writer.WriteString w tok fs with
    | (some e, w1, fs1) => (some e, w1, fs1)
    | (none, w1, fs1) =>
      match Writer.WriteByte w1 '\n' fs1 with
      | (some e, w2, fs2) => (some e, w2, fs2)
      | (none, w2, fs2) => writeTokens rest w2 fs2

/-- The function `generateTokensToFile`, with `dirOf` the function
`filepath.Dir`: the error it returns and the file system it leaves. The deferred
`f.Close()` has no effect on the content and its error is dropped. -/
def generateTokensToFile {σ ε : Type} (dirOf : String → String) (numCPU : Nat)
    (path : String) (count : Int) (genFn : σ → Except ε String × σ) (s0 : σ)
    (sched : Nat → Nat) (fs : FileSystem) : Option (Option (FileErr ε) × FileSystem) :=
  match generateTokens numCPU count genFn s0 sched with
  | none => none
  | some out =>
    match out.err with
    | some err => some (some (FileErr.generation err), fs)
    | none =>
      match MkdirAll (dirOf path) fs with
      | (some e, fs1) => some (some e, fs1)
      | (none, fs1) =>
        match Create (dirOf path) path fs1 with
        | (some e, fs2) => some (some e, fs2)
        | (none, fs2) =>
          match writeTokens (out.tokens.getD []) { path := path, buf := "" } fs2 with
          | (some e, _, fs3) => some (some e, fs3)
          | (none, w, fs3) =>
            match Writer.Flush w fs3 with
            | (some e, _, fs4) => some (some e, fs4)
            | (none, _, fs4) => some (none, fs4)

/-! ## Specification vocabulary -/

/-- The first `n` results of the producer called in sequence from `s0`, and
its state after them. -/
def history {σ ε : Type} (genFn : σ → Except ε String × σ) (s0 : σ) :
    Nat → List (Except ε String) × σ
  | 0 => ([], s0)
  | n + 1 =>
    ((history genFn s0 n).1 ++ [(genFn (history genFn s0 n).2).1],
      (genFn (history genFn s0 n).2).2)

/-- The calls of worker `j` within a history, in order. -/
def callsOf {ε : Type} (j : Nat) (calls : List (Call ε)) : List (Call ε) :=
  calls.filter (fun c => c.worker == j)

/-- The text `t₀ ++ "\n" ++ t₁ ++ "\n" ++ ...` of a token sequence. -/
def joinLines (toks : List String) : String :=
  toks.foldl (fun acc t => acc ++ t ++ "\n") ""

/-- The lines of a text after the pending piece `acc`: the pieces ended by a
newline, and the unfinished piece after the last newline if it is not empty. -/
def linesFrom : List Char → List Char → List String
  | acc, [] => if acc = [] then [] else [String.mk acc]
  | acc, c :: cs =>
    if c = '\n' then String.mk acc :: linesFrom [] cs else linesFrom (acc ++ [c]) cs

/-- The lines of a text. -/
def lines (s : String) : List String := linesFrom [] s.data

/-! ## Inputs used by the tests and the examples -/

/-- The producer of `TestGenerateTokensUsesAllCount`: it counts its calls and
returns `"tok"`. -/
def countingGen : Nat → Except String String × Nat :=
  fun calls => (Except.ok "tok", calls + 1)

/-- The producer of `TestGenerateTokensErrorPropagates` with threshold `k` (the
test has `k = 5`): it counts its calls and fails once the count exceeds `k`. -/
def failAfter (k : Nat) : Nat → Except String String × Nat :=
  fun calls => if calls + 1 > k then (Except.error "invalid argument", calls + 1)
    else (Except.ok "tok", calls + 1)

/-- A producer that numbers its results: call number `m` returns the decimal
numeral of `m`. -/
def numberingGen : Nat → Except String String × Nat :=
  fun calls => (Except.ok (toString calls), calls + 1)

/-- A producer that always fails. -/
def failingGen : Unit → Except String String × Unit :=
  fun u => (Except.error "invalid argument", u)

/-- A small generator: a counter pushed through a linear map. -/
def lcgIntn : Nat → Nat → Nat × Nat :=
  fun n s => ((s * 7 + 3) % n, s + 1)

/-- The elements of a path split at every slash, empty ones included, `acc`
being the element under way. -/
def splitSlash : List Char → List Char → List String
  | [], acc => [String.mk acc]
  | c :: cs, acc => if c = '/' then String.mk acc :: splitSlash cs [] else splitSlash cs (acc ++ [c])

/-- The element rules of `filepath.Clean`: empty and `.` elements are dropped,
a `..` element removes the element before it, is dropped at the root, and is
kept at the start of a relative path. The second list is the result so far,
last element first. -/
def cleanElems (rooted : Bool) : List String → List String → List String
  | [], out => out.reverse
  | e :: es, out =>
    if e = "" ∨ e = "." then cleanElems rooted es out
    else if e = ".." then
      match out with
      | [] => if rooted then cleanElems rooted es [] else cleanElems rooted es [".."]
      | top :: rest =>
        if top = ".." then cleanElems rooted es (".." :: top :: rest)
        else cleanElems rooted es rest
    else cleanElems rooted es (e :: out)

/-- The function `filepath.Clean` for slash-separated paths. -/
def filepathClean (p : String) : String :=
  let rooted := p.data.head? == some '/'
  let elems := cleanElems rooted (splitSlash p.data []) []
  if rooted then "/" ++ String.intercalate "/" elems
  else if elems = [] then "." else String.intercalate "/" elems

/-- The function `filepath.Dir` for slash-separated paths: the path up to and
including its last slash, cleaned. -/
def parentDir (path : String) : String :=
  filepathClean (String.mk (path.data.reverse.dropWhile (fun c => c != '/')).reverse)

/-! ## Invariants of a run -/

/-- The start of the range of worker `j` in closed form. -/
def shardStart (p : GenParams) (j : Nat) : Nat := j * p.base + min j p.rem

/-- The parameters as `generateTokens` computes them. -/
structure GenParams.WF (p : GenParams) : Prop where
  pos : 0 < p.workers
  base_eq : p.base = p.count / p.workers
  rem_eq : p.rem = p.count % p.workers

/-- The parameters computed by `generateTokens` from `runtime.NumCPU()` and `count`. -/
def paramsOf (numCPU : Nat) (count : Int) : GenParams :=
  { workers := if numCPU > count.toNat then count.toNat else numCPU
    count := count.toNat
    base := count.toNat / (if numCPU > count.toNat then count.toNat else numCPU)
    rem := count.toNat % (if numCPU > count.toNat then count.toNat else numCPU) }

/-- The ways one iteration of a worker can go. -/
inductive WorkerCase {σ ε : Type} (genFn : σ → Except ε String × σ) (j : Nat)
    (st : GenState σ ε) : GenState σ ε → Prop where
  | idle (h : st.goroutines[j]? = none ∨ ∃ w, st.goroutines[j]? = some w ∧ w.done = true) :
      WorkerCase genFn j st st
  | exit (w : Worker) (hw : st.goroutines[j]? = some w) (hd : w.done = false)
      (hge : ¬ w.idx < w.e) :
      WorkerCase genFn j st
        { st with goroutines := st.goroutines.set j { w with done := true } }
  | fail (w : Worker) (err : ε) (s' : σ) (hw : st.goroutines[j]? = some w)
      (hd : w.done = false) (hlt : w.idx < w.e) (hg : genFn st.prod = (Except.error err, s')) :
      WorkerCase genFn j st
        { st with
          prod := s'
          calls := st.calls ++ [{ worker := j, idx := w.idx, res := Except.error err }]
          firstErr := if st.errOnce then st.firstErr else some err
          errOnce := true
          goroutines := st.goroutines.set j { w with done := true } }
  | write (w : Worker) (tok : String) (s' : σ) (hw : st.goroutines[j]? = some w)
      (hd : w.done = false) (hlt : w.idx < w.e) (hg : genFn st.prod = (Except.ok tok, s'))
      (hin : w.idx < st.tokens.length) :
      WorkerCase genFn j st
        { st with
          prod := s'
          calls := st.calls ++ [{ worker := j, idx := w.idx, res := Except.ok tok }]
          tokens := st.tokens.set w.idx tok
          goroutines := st.goroutines.set j { w with idx := w.idx + 1, done := false } }
  | crash (w : Worker) (tok : String) (s' : σ) (hw : st.goroutines[j]? = some w)
      (hd : w.done = false) (hlt : w.idx < w.e) (hg : genFn st.prod = (Except.ok tok, s'))
      (hin : ¬ w.idx < st.tokens.length) :
      WorkerCase genFn j st
        { st with
          prod := s'
          calls := st.calls ++ [{ worker := j, idx := w.idx, res := Except.ok tok }]
          panicked := true
          goroutines := st.goroutines.set j { w with done := true } }

/-- The shape of a reachable state: the spawned workers are the first `i`
shards, each loop variable is within its range, `tokens` keeps its length and
no write has gone outside it. -/
structure Shape {σ ε : Type} (p : GenParams) (st : GenState σ ε) : Prop where
  len : st.goroutines.length = st.i
  iW : st.i ≤ p.workers
  start : st.start = shardStart p st.i
  toks : st.tokens.length = p.count
  pan : st.panicked = false
  rng : ∀ j w, st.goroutines[j]? = some w →
    w.s = shardStart p j ∧ w.e = shardStart p (j + 1) ∧ w.s ≤ w.idx ∧ w.idx ≤ w.e

/-- The history of a reachable state: the recorded calls are the sequential
history of the producer, the error slot is filled exactly when a call has
failed, and it holds the error of one of the calls. -/
structure Trace {σ ε : Type} (genFn : σ → Except ε String × σ) (s0 : σ)
    (st : GenState σ ε) : Prop where
  once : st.errOnce = st.firstErr.isSome
  err1 : ∀ e, st.firstErr = some e → ∃ c ∈ st.calls, c.res = Except.error e
  err2 : ∀ c ∈ st.calls, ∀ e, c.res = Except.error e → st.firstErr ≠ none
  hist : history genFn s0 st.calls.length = (st.calls.map (fun c => c.res), st.prod)

/-- A recorded call lies in the range of the worker that made it, below its
loop variable unless that worker has returned. -/
def Owned {ε : Type} (gs : List Worker) (c : Call ε) : Prop :=
  ∃ w, gs[c.worker]? = some w ∧ w.s ≤ c.idx ∧ c.idx < w.e ∧ (c.idx < w.idx ∨ w.done = true)

/-- The ledger of a reachable state: who called the producer for which index,
and where the results went. -/
structure Ledger {σ ε : Type} (st : GenState σ ε) : Prop where
  own : ∀ c ∈ st.calls, Owned st.goroutines c
  nodup : (st.calls.map (fun c => c.idx)).Nodup
  slots : ∀ j w, st.goroutines[j]? = some w → ∀ k, k < w.idx - w.s →
    ∃ tok, (callsOf j st.calls)[k]? = some ⟨j, w.s + k, Except.ok tok⟩ ∧
      st.tokens[w.s + k]? = some tok
  tail : ∀ j w, st.goroutines[j]? = some w →
    ((callsOf j st.calls).length = w.idx - w.s ∧ (w.done = true → w.idx = w.e)) ∨
    (w.done = true ∧ w.idx < w.e ∧ ∃ err, (callsOf j st.calls).length = w.idx - w.s + 1 ∧
      (callsOf j st.calls)[w.idx - w.s]? = some ⟨j, w.idx, Except.error err⟩)

/-- The steps a worker can still take: none once it has returned, else one per
remaining index and one for the failing loop test. -/
def Worker.left (w : Worker) : Nat := if w.done then 0 else w.e - w.idx + 1

/-- The steps the spawned workers can still take. -/
def remaining (gs : List Worker) : Nat := (gs.map Worker.left).sum

/-- A bound on the number of steps still to come. -/
def measure {σ ε : Type} (p : GenParams) (st : GenState σ ε) : Nat :=
  (p.workers - st.i) * (p.base + 3) + remaining st.goroutines

/-- The facts that hold in every state of a run. -/
structure Reach {σ ε : Type} (p : GenParams) (genFn : σ → Except ε String × σ) (s0 : σ)
    (st : GenState σ ε) : Prop where
  shape : Shape p st
  trace : Trace genFn s0 st
  ledger : Ledger st

/-- The state in which `wg.Wait()` returns. -/
structure Final {σ ε : Type} (p : GenParams) (genFn : σ → Except ε String × σ) (s0 : σ)
    (st : GenState σ ε) extends Reach p genFn s0 st : Prop where
  spawned : st.i = p.workers
  joined : ∀ (j : Nat) (w : Worker), st.goroutines[j]? = some w → w.done = true

/-- The bytes accepted by the writer so far: those in the file followed by the
pending ones. -/
def Streamed (path : String) (w : Writer) (fs : FileSystem) (total : String) : Prop :=
  w.path = path ∧ ∃ content, fs.readFile path = some content ∧ content ++ w.buf = total

/-! ## Lemmas and theorems -/

theorem shardStart_zero (p : GenParams) : shardStart p 0 = 0 := by
  simp [shardStart]

theorem shardStart_succ (p : GenParams) (j : Nat) :
    shardStart p (j + 1) = shardStart p j + shardSize p j := by
  unfold shardStart shardSize
  rw [Nat.succ_mul]
  split <;> omega

theorem shardSize_le (p : GenParams) (j : Nat) : shardSize p j ≤ p.base + 1 := by
  unfold shardSize; split <;> omega

theorem shardStart_mono (p : GenParams) {j k : Nat} (h : j ≤ k) :
    shardStart p j ≤ shardStart p k := by
  induction k with
  | zero => 
    have : j = 0 := by omega
    subst this; exact Nat.le_refl _
  | succ k ih =>
    rcases Nat.lt_or_ge j (k + 1) with hlt | hge
    · have := ih (by omega)
      rw [shardStart_succ]; omega
    · have : j = k + 1 := by omega
      subst this; exact Nat.le_refl _

theorem shardStart_workers {p : GenParams} (hp : p.WF) :
    shardStart p p.workers = p.count := by
  unfold shardStart
  have h1 : p.rem < p.workers := by rw [hp.rem_eq]; exact Nat.mod_lt _ hp.pos
  have h2 : p.workers * p.base + p.rem = p.count := by
    rw [hp.base_eq, hp.rem_eq]; exact Nat.div_add_mod _ _
  rw [Nat.min_eq_right (Nat.le_of_lt h1)]
  omega

theorem shardStart_le_count {p : GenParams} (hp : p.WF) {j : Nat} (h : j ≤ p.workers) :
    shardStart p j ≤ p.count := by
  rw [← shardStart_workers hp]; exact shardStart_mono p h

/-- Every index below `count` lies in the range of exactly one worker. -/
theorem shard_exists (p : GenParams) (n i : Nat) (h : i < shardStart p n) :
    ∃ j, j < n ∧ shardStart p j ≤ i ∧ i < shardStart p (j + 1) := by
  induction n with
  | zero => simp [shardStart_zero] at h
  | succ n ih =>
    rcases Nat.lt_or_ge i (shardStart p n) with hlt | hge
    · obtain ⟨j, hj, h1, h2⟩ := ih hlt
      exact ⟨j, by omega, h1, h2⟩
    · exact ⟨n, by omega, hge, h⟩

theorem shard_unique (p : GenParams) {j k i : Nat}
    (hj1 : shardStart p j ≤ i) (hj2 : i < shardStart p (j + 1))
    (hk1 : shardStart p k ≤ i) (hk2 : i < shardStart p (k + 1)) : j = k := by
  rcases Nat.lt_trichotomy j k with h | h | h
  · have := shardStart_mono p (show j + 1 ≤ k by omega); omega
  · exact h
  · have := shardStart_mono p (show k + 1 ≤ j by omega); omega

section Steps
variable {σ ε : Type}

theorem workerStep_case (genFn : σ → Except ε String × σ) (j : Nat) (st : GenState σ ε) :
    WorkerCase genFn j st (workerStep genFn j st) := by
  unfold workerStep
  cases hw : st.goroutines[j]? with
  | none => exact WorkerCase.idle (Or.inl hw)
  | some w =>
    simp only
    cases hd : w.done with
    | true => simp only [if_true]; exact WorkerCase.idle (Or.inr ⟨w, hw, hd⟩)
    | false =>
      simp only [Bool.false_eq_true, if_false]
      by_cases hlt : w.idx < w.e
      · simp only [hlt, if_true]
        rcases hg : genFn st.prod with ⟨r, s'⟩
        cases r with
        | error err =>
          simp only
          exact WorkerCase.fail w err s' hw hd hlt hg
        | ok tok =>
          simp only
          by_cases hin : w.idx < st.tokens.length
          · simp only [hin, if_true]
            exact WorkerCase.write w tok s' hw hd hlt hg hin
          · simp only [hin, if_false]
            exact WorkerCase.crash w tok s' hw hd hlt hg hin
      · simp only [hlt, if_false]
        exact WorkerCase.exit w hw hd hlt

end Steps

theorem getElem?_set_cases {α : Type} {l : List α} {j k : Nat} {a b : α}
    (h : (l.set j a)[k]? = some b) :
    (k = j ∧ b = a ∧ j < l.length) ∨ (k ≠ j ∧ l[k]? = some b) := by
  by_cases hk : j = k
  · subst hk
    left
    rw [List.getElem?_set_self'] at h
    cases hl : l[j]? with
    | none => simp [hl] at h
    | some c =>
      simp [hl] at h
      have := List.getElem?_eq_some_iff.1 hl
      exact ⟨rfl, h.symm, this.1⟩
  · right
    rw [List.getElem?_set_ne hk] at h
    exact ⟨fun e => hk e.symm, h⟩

theorem getElem?_snoc_cases {α : Type} {l : List α} {k : Nat} {a b : α}
    (h : (l ++ [a])[k]? = some b) :
    (k < l.length ∧ l[k]? = some b) ∨ (k = l.length ∧ b = a) := by
  rcases Nat.lt_or_ge k l.length with hlt | hge
  · left
    rw [List.getElem?_append_left hlt] at h
    exact ⟨hlt, h⟩
  · right
    rw [List.getElem?_append_right hge] at h
    have h2 : k - l.length < 1 := by
      by_contra hcon
      rw [List.getElem?_eq_none (by simp only [List.length_singleton]; omega)] at h
      exact Option.noConfusion h
    have h3 : k - l.length = 0 := by omega
    rw [h3] at h
    simp at h
    exact ⟨by omega, h.symm⟩

section Shape
variable {σ ε : Type}

theorem Shape.shape_init (p : GenParams) (s0 : σ) :
    Shape p (initState p.count s0 : GenState σ ε) where
  len := rfl
  iW := Nat.zero_le _
  start := by simp [initState, shardStart_zero]
  toks := by simp [initState]
  pan := rfl
  rng := by intro j w h; simp [initState] at h

theorem Shape.lt_workers {p : GenParams} {st : GenState σ ε} (h : Shape p st)
    {j : Nat} {w : Worker} (hw : st.goroutines[j]? = some w) : j < p.workers := by
  have := (List.getElem?_eq_some_iff.1 hw).1
  have := h.len; have := h.iW
  omega

theorem Shape.e_le_count {p : GenParams} (hp : p.WF) {st : GenState σ ε} (h : Shape p st)
    {j : Nat} {w : Worker} (hw : st.goroutines[j]? = some w) : w.e ≤ p.count := by
  have h1 := h.lt_workers hw
  rw [(h.rng j w hw).2.1]
  exact shardStart_le_count hp h1

theorem Shape.shape_spawn {p : GenParams} {st : GenState σ ε} (h : Shape p st) :
    Shape p (spawnStep p st) := by
  unfold spawnStep
  by_cases hi : st.i < p.workers
  · simp only [hi, if_true]
    refine ⟨?_, ?_, ?_, h.toks, h.pan, ?_⟩
    · simp [h.len]
    · exact hi
    · simp only [h.start, shardStart_succ]
    · intro j w hw
      simp only at hw
      rcases getElem?_snoc_cases hw with ⟨_, hold⟩ | ⟨hj, hnew⟩
      · exact h.rng j w hold
      · subst hnew
        rw [h.len] at hj
        subst hj
        simp only [h.start, shardStart_succ]
        exact ⟨trivial, trivial, Nat.le_refl _, Nat.le_add_right _ _⟩
  · simp only [hi, if_false]; exact h

theorem Shape.shape_worker {p : GenParams} (hp : p.WF) (genFn : σ → Except ε String × σ)
    {st : GenState σ ε} (h : Shape p st) (j : Nat) :
    Shape p (workerStep genFn j st) := by
  have hc := workerStep_case genFn j st
  revert hc
  generalize workerStep genFn j st = st'
  intro hc
  cases hc with
  | idle _ => exact h
  | exit w hw hd hge =>
    refine ⟨?_, h.iW, h.start, h.toks, h.pan, ?_⟩
    · simp [h.len]
    · intro k w' hk
      rcases getElem?_set_cases hk with ⟨hkj, hw', _⟩ | ⟨_, hold⟩
      · subst hkj; subst hw'; exact h.rng k w hw
      · exact h.rng k w' hold
  | fail w err s' hw hd hlt hg =>
    refine ⟨?_, h.iW, h.start, h.toks, h.pan, ?_⟩
    · simp [h.len]
    · intro k w' hk
      rcases getElem?_set_cases hk with ⟨hkj, hw', _⟩ | ⟨_, hold⟩
      · subst hkj; subst hw'; exact h.rng k w hw
      · exact h.rng k w' hold
  | write w tok s' hw hd hlt hg hin =>
    refine ⟨?_, h.iW, h.start, ?_, h.pan, ?_⟩
    · simp [h.len]
    · simp [h.toks]
    · intro k w' hk
      rcases getElem?_set_cases hk with ⟨hkj, hw', _⟩ | ⟨_, hold⟩
      · subst hkj; subst hw'
        have := h.rng k w hw
        exact ⟨this.1, this.2.1, by simp only; omega, by simp only; omega⟩
      · exact h.rng k w' hold
  | crash w tok s' hw hd hlt hg hin =>
    exfalso
    have := h.e_le_count hp hw
    have := h.toks
    omega

theorem Shape.shape_step {p : GenParams} (hp : p.WF) (genFn : σ → Except ε String × σ)
    {st : GenState σ ε} (h : Shape p st) (a : Action) :
    Shape p (step p genFn a st) := by
  cases a with
  | spawn => exact h.shape_spawn
  | worker j => exact h.shape_worker hp genFn j

end Shape

section Trace
variable {σ ε : Type}

theorem Trace.trace_init (genFn : σ → Except ε String × σ) (n : Nat) (s0 : σ) :
    Trace genFn s0 (initState n s0 : GenState σ ε) where
  once := rfl
  err1 := by intro e h; simp [initState] at h
  err2 := by intro c h; simp [initState] at h
  hist := rfl

theorem Trace.trace_spawn {genFn : σ → Except ε String × σ} {s0 : σ} (p : GenParams)
    {st : GenState σ ε} (h : Trace genFn s0 st) : Trace genFn s0 (spawnStep p st) := by
  unfold spawnStep
  by_cases hi : st.i < p.workers
  · simp only [hi, if_true]
    exact ⟨h.once, h.err1, h.err2, h.hist⟩
  · simp only [hi, if_false]; exact h

theorem history_snoc (genFn : σ → Except ε String × σ) (s0 : σ) (calls : List (Call ε))
    (prod s' : σ) (r : Except ε String) (c : Call ε) (hc : c.res = r)
    (hh : history genFn s0 calls.length = (calls.map (fun c => c.res), prod))
    (hg : genFn prod = (r, s')) :
    history genFn s0 (calls ++ [c]).length = ((calls ++ [c]).map (fun c => c.res), s') := by
  rw [List.length_append, List.length_singleton, history, hh]
  simp [hg, hc]

theorem Trace.trace_worker {genFn : σ → Except ε String × σ} {s0 : σ}
    {st : GenState σ ε} (h : Trace genFn s0 st) (j : Nat) :
    Trace genFn s0 (workerStep genFn j st) := by
  have hc := workerStep_case genFn j st
  revert hc
  generalize workerStep genFn j st = st'
  intro hc
  cases hc with
  | idle _ => exact h
  | exit w hw hd hge => exact ⟨h.once, h.err1, h.err2, h.hist⟩
  | fail w err s' hw hd hlt hg =>
    refine ⟨?_, ?_, ?_, ?_⟩
    · simp only
      cases ho : st.errOnce with
      | false => simp
      | true =>
        have := h.once
        rw [ho] at this
        simp [← this]
    · intro e he
      simp only at he
      cases ho : st.errOnce with
      | false =>
        rw [ho] at he
        simp at he
        exact ⟨_, List.mem_append_right _ (List.mem_singleton_self _), by rw [he]⟩
      | true =>
        rw [ho] at he
        simp at he
        obtain ⟨c, hc, hce⟩ := h.err1 e he
        exact ⟨c, List.mem_append_left _ hc, hce⟩
    · intro c _ e _
      simp only
      cases ho : st.errOnce with
      | false => simp
      | true =>
        have := h.once
        rw [ho] at this
        simp only [if_true]
        intro hn
        rw [hn] at this
        simp at this
    · exact history_snoc genFn s0 st.calls st.prod s' _ _ rfl h.hist hg
  | write w tok s' hw hd hlt hg hin =>
    refine ⟨h.once, ?_, ?_, ?_⟩
    · intro e he
      obtain ⟨c, hc, hce⟩ := h.err1 e he
      exact ⟨c, List.mem_append_left _ hc, hce⟩
    · intro c hc e hce
      simp only at hc
      rcases List.mem_append.1 hc with hc | hc
      · exact h.err2 c hc e hce
      · rw [List.mem_singleton.1 hc] at hce
        simp at hce
    · exact history_snoc genFn s0 st.calls st.prod s' _ _ rfl h.hist hg
  | crash w tok s' hw hd hlt hg hin =>
    refine ⟨h.once, ?_, ?_, ?_⟩
    · intro e he
      obtain ⟨c, hc, hce⟩ := h.err1 e he
      exact ⟨c, List.mem_append_left _ hc, hce⟩
    · intro c hc e hce
      simp only at hc
      rcases List.mem_append.1 hc with hc | hc
      · exact h.err2 c hc e hce
      · rw [List.mem_singleton.1 hc] at hce
        simp at hce
    · exact history_snoc genFn s0 st.calls st.prod s' _ _ rfl h.hist hg

theorem Trace.trace_step {genFn : σ → Except ε String × σ} {s0 : σ} (p : GenParams)
    {st : GenState σ ε} (h : Trace genFn s0 st) (a : Action) :
    Trace genFn s0 (step p genFn a st) := by
  cases a with
  | spawn => exact h.trace_spawn p
  | worker j => exact h.trace_worker j

/-- Every recorded result is a value returned by the producer. -/
theorem history_mem (genFn : σ → Except ε String × σ) (s0 : σ) (n : Nat)
    (r : Except ε String) (hr : r ∈ (history genFn s0 n).1) : ∃ s, r = (genFn s).1 := by
  induction n with
  | zero => simp [history] at hr
  | succ n ih =>
    simp only [history] at hr
    rcases List.mem_append.1 hr with h | h
    · exact ih h
    · exact ⟨_, List.mem_singleton.1 h⟩

theorem history_length (genFn : σ → Except ε String × σ) (s0 : σ) (n : Nat) :
    (history genFn s0 n).1.length = n := by
  induction n with
  | zero => rfl
  | succ n ih => simp [history, ih]

end Trace

section Ledger
variable {σ ε : Type}

theorem callsOf_snoc_self (j : Nat) (calls : List (Call ε)) (c : Call ε) (h : c.worker = j) :
    callsOf j (calls ++ [c]) = callsOf j calls ++ [c] := by
  simp [callsOf, List.filter_append, List.filter_cons, h]

theorem callsOf_snoc_ne (j : Nat) (calls : List (Call ε)) (c : Call ε) (h : c.worker ≠ j) :
    callsOf j (calls ++ [c]) = callsOf j calls := by
  simp [callsOf, List.filter_append, List.filter_cons, h]

theorem callsOf_mem {j : Nat} {calls : List (Call ε)} {c : Call ε} (h : c ∈ callsOf j calls) :
    c ∈ calls ∧ c.worker = j := by
  simpa [callsOf, List.mem_filter] using h

theorem set_get_self {α : Type} {l : List α} {j : Nat} {a : α} (b : α) (h : l[j]? = some a) :
    (l.set j b)[j]? = some b := by
  rw [List.getElem?_set_self (List.getElem?_eq_some_iff.1 h).1]

theorem Owned.update {gs : List Worker} {j : Nat} {w : Worker} (w' : Worker)
    (hw : gs[j]? = some w)
    (hs : w'.s = w.s) (he : w'.e = w.e) (hidx : w.idx ≤ w'.idx)
    (hdone : w.done = true → w'.done = true) {c : Call ε} (hc : Owned gs c) :
    Owned (gs.set j w') c := by
  obtain ⟨v, hv, h1, h2, h3⟩ := hc
  by_cases hcj : c.worker = j
  · rw [hcj, hw] at hv
    cases hv
    refine ⟨w', by rw [hcj]; exact set_get_self w' hw, by omega, by omega, ?_⟩
    rcases h3 with h3 | h3
    · left; omega
    · right; exact hdone h3
  · exact ⟨v, by rw [List.getElem?_set_ne (fun e => hcj e.symm)]; exact hv, h1, h2, h3⟩

theorem Ledger.ledger_init (n : Nat) (s0 : σ) : Ledger (initState n s0 : GenState σ ε) where
  own := by intro c h; simp [initState] at h
  nodup := by simp [initState]
  slots := by intro j w h; simp [initState] at h
  tail := by intro j w h; simp [initState] at h

/-- The index a running worker is about to produce has not been produced. -/
theorem Ledger.fresh {p : GenParams} {st : GenState σ ε} (hs : Shape p st) (h : Ledger st)
    {j : Nat} {w : Worker} (hw : st.goroutines[j]? = some w) (hd : w.done = false)
    (hlt : w.idx < w.e) : w.idx ∉ st.calls.map (fun c => c.idx) := by
  intro hmem
  obtain ⟨c, hc, hci⟩ := List.mem_map.1 hmem
  obtain ⟨v, hv, h1, h2, h3⟩ := h.own c hc
  have rv := hs.rng _ v hv
  have rj := hs.rng _ w hw
  have hjk : c.worker = j := by
    apply shard_unique p (i := w.idx)
    · rw [← rv.1]; omega
    · rw [← rv.2.1]; omega
    · rw [← rj.1]; exact rj.2.2.1
    · rw [← rj.2.1]; exact hlt
  rw [hjk, hw] at hv
  cases hv
  rcases h3 with h3 | h3
  · omega
  · rw [hd] at h3; exact Bool.noConfusion h3

theorem Ledger.ledger_spawn {p : GenParams} {st : GenState σ ε} (h : Ledger st) :
    Ledger (spawnStep p st) := by
  unfold spawnStep
  by_cases hi : st.i < p.workers
  · simp only [hi, if_true]
    refine ⟨?_, h.nodup, ?_, ?_⟩
    · intro c hc
      obtain ⟨v, hv, hrest⟩ := h.own c hc
      refine ⟨v, ?_, hrest⟩
      simp only
      rw [List.getElem?_append_left (List.getElem?_eq_some_iff.1 hv).1]
      exact hv
    · intro j w hw
      simp only at hw
      rcases getElem?_snoc_cases hw with ⟨_, hold⟩ | ⟨_, hnew⟩
      · exact h.slots j w hold
      · subst hnew
        intro k hk
        simp only at hk
        omega
    · intro j w hw
      simp only at hw
      rcases getElem?_snoc_cases hw with ⟨_, hold⟩ | ⟨hj, hnew⟩
      · exact h.tail j w hold
      · subst hnew
        left
        refine ⟨?_, by intro hf; exact Bool.noConfusion hf⟩
        simp only [Nat.sub_self, List.length_eq_zero]
        apply List.eq_nil_iff_forall_not_mem.2
        intro c hc
        obtain ⟨hc1, hc2⟩ := callsOf_mem hc
        obtain ⟨v, hv, _⟩ := h.own c hc1
        have := (List.getElem?_eq_some_iff.1 hv).1
        omega
  · simp only [hi, if_false]; exact h

end Ledger

section LedgerWorker
variable {σ ε : Type}

theorem Ledger.ledger_worker {p : GenParams} (hp : p.WF) (genFn : σ → Except ε String × σ)
    {st : GenState σ ε} (hs : Shape p st) (h : Ledger st) (j : Nat) :
    Ledger (workerStep genFn j st) := by
  have hc := workerStep_case genFn j st
  revert hc
  generalize workerStep genFn j st = st'
  intro hc
  cases hc with
  | idle _ => exact h
  | exit w hw hd hge =>
    have hr := hs.rng j w hw
    refine ⟨?_, h.nodup, ?_, ?_⟩
    · intro c hc
      exact Owned.update { w with done := true } hw rfl rfl (Nat.le_refl _) (fun _ => rfl)
          (h.own c hc)
    · intro k v hk
      rcases getElem?_set_cases hk with ⟨hkj, hv, _⟩ | ⟨_, hold⟩
      · subst hkj; subst hv; exact h.slots k w hw
      · exact h.slots k v hold
    · intro k v hk
      rcases getElem?_set_cases hk with ⟨hkj, hv, _⟩ | ⟨_, hold⟩
      · subst hkj; subst hv
        rcases h.tail k w hw with ⟨h1, _⟩ | ⟨h1, _⟩
        · left
          refine ⟨h1, fun _ => ?_⟩
          simp only
          omega
        · rw [hd] at h1; exact Bool.noConfusion h1
      · exact h.tail k v hold
  | fail w err s' hw hd hlt hg =>
    have hr := hs.rng j w hw
    refine ⟨?_, ?_, ?_, ?_⟩
    · intro c hc
      simp only at hc
      rcases List.mem_append.1 hc with hc | hc
      · exact Owned.update { w with done := true } hw rfl rfl (Nat.le_refl _) (fun _ => rfl)
          (h.own c hc)
      · rw [List.mem_singleton.1 hc]
        exact ⟨_, set_get_self _ hw, hr.2.2.1, hlt, Or.inr rfl⟩
    · simp only [List.map_append, List.map_cons, List.map_nil]
      rw [List.nodup_append]
      refine ⟨h.nodup, List.nodup_singleton _, ?_⟩
      rw [List.disjoint_singleton]
      exact h.fresh hs hw hd hlt
    · intro k v hk
      simp only at hk
      rcases getElem?_set_cases hk with ⟨hkj, hv, _⟩ | ⟨hkj, hold⟩
      · subst hkj; subst hv
        intro i hi
        obtain ⟨tok, h1, h2⟩ := h.slots k w hw i hi
        refine ⟨tok, ?_, h2⟩
        simp only
        rw [callsOf_snoc_self k _ _ rfl,
          List.getElem?_append_left (List.getElem?_eq_some_iff.1 h1).1]
        exact h1
      · intro i hi
        obtain ⟨tok, h1, h2⟩ := h.slots k v hold i hi
        refine ⟨tok, ?_, h2⟩
        simp only
        rw [callsOf_snoc_ne k _ _ (fun e => hkj e.symm)]
        exact h1
    · intro k v hk
      simp only at hk
      rcases getElem?_set_cases hk with ⟨hkj, hv, _⟩ | ⟨hkj, hold⟩
      · subst hkj; subst hv
        rcases h.tail k w hw with ⟨h1, _⟩ | ⟨h1, _⟩
        · right
          refine ⟨rfl, hlt, err, ?_, ?_⟩
          · simp only
            rw [callsOf_snoc_self k _ _ rfl, List.length_append, h1]
            rfl
          · simp only
            rw [callsOf_snoc_self k _ _ rfl, ← h1,
              List.getElem?_append_right (Nat.le_refl _), Nat.sub_self]
            rfl
        · rw [hd] at h1; exact Bool.noConfusion h1
      · simp only
        rw [callsOf_snoc_ne k _ _ (fun e => hkj e.symm)]
        exact h.tail k v hold
  | write w tok s' hw hd hlt hg hin =>
    have hr := hs.rng j w hw
    refine ⟨?_, ?_, ?_, ?_⟩
    · intro c hc
      simp only at hc
      rcases List.mem_append.1 hc with hc | hc
      · refine Owned.update { w with idx := w.idx + 1, done := false } hw rfl rfl
          (Nat.le_succ _) ?_ (h.own c hc)
        intro hf; rw [hd] at hf; exact Bool.noConfusion hf
      · rw [List.mem_singleton.1 hc]
        exact ⟨_, set_get_self _ hw, hr.2.2.1, hlt, Or.inl (Nat.lt_succ_self _)⟩
    · simp only [List.map_append, List.map_cons, List.map_nil]
      rw [List.nodup_append]
      refine ⟨h.nodup, List.nodup_singleton _, ?_⟩
      rw [List.disjoint_singleton]
      exact h.fresh hs hw hd hlt
    · intro k v hk
      simp only at hk
      rcases getElem?_set_cases hk with ⟨hkj, hv, _⟩ | ⟨hkj, hold⟩
      · subst hkj; subst hv
        intro i hi
        simp only at hi
        have hlen : (callsOf k st.calls).length = w.idx - w.s := by
          rcases h.tail k w hw with ⟨h1, _⟩ | ⟨h1, _⟩
          · exact h1
          · rw [hd] at h1; exact Bool.noConfusion h1
        simp only
        rw [callsOf_snoc_self k _ _ rfl]
        rcases Nat.lt_or_ge i (w.idx - w.s) with hlo | hhi
        · obtain ⟨t, h1, h2⟩ := h.slots k w hw i hlo
          refine ⟨t, ?_, ?_⟩
          · rw [List.getElem?_append_left (List.getElem?_eq_some_iff.1 h1).1]
            exact h1
          · rw [List.getElem?_set_ne (by omega)]
            exact h2
        · have hi' : i = w.idx - w.s := by omega
          subst hi'
          refine ⟨tok, ?_, ?_⟩
          · rw [← hlen, List.getElem?_append_right (Nat.le_refl _), Nat.sub_self]
            simp only [List.getElem?_cons_zero, hlen]
            have : w.s + (w.idx - w.s) = w.idx := by omega
            rw [this]
          · have : w.s + (w.idx - w.s) = w.idx := by omega
            rw [this, List.getElem?_set_self hin]
      · intro i hi
        obtain ⟨t, h1, h2⟩ := h.slots k v hold i hi
        refine ⟨t, ?_, ?_⟩
        · simp only
          rw [callsOf_snoc_ne k _ _ (fun e => hkj e.symm)]
          exact h1
        · simp only
          have rv := hs.rng k v hold
          have hne : w.idx ≠ v.s + i := by
            intro heq
            apply hkj
            apply shard_unique p (i := w.idx)
            · rw [← rv.1]; omega
            · rw [← rv.2.1]; omega
            · rw [← hr.1]; exact hr.2.2.1
            · rw [← hr.2.1]; exact hlt
          rw [List.getElem?_set_ne hne]
          exact h2
    · intro k v hk
      simp only at hk
      rcases getElem?_set_cases hk with ⟨hkj, hv, _⟩ | ⟨hkj, hold⟩
      · subst hkj; subst hv
        rcases h.tail k w hw with ⟨h1, _⟩ | ⟨h1, _⟩
        · left
          refine ⟨?_, fun hf => Bool.noConfusion hf⟩
          simp only
          rw [callsOf_snoc_self k _ _ rfl, List.length_append, h1, List.length_singleton]
          omega
        · rw [hd] at h1; exact Bool.noConfusion h1
      · simp only
        rw [callsOf_snoc_ne k _ _ (fun e => hkj e.symm)]
        exact h.tail k v hold
  | crash w tok s' hw hd hlt hg hin =>
    exfalso
    have := hs.e_le_count hp hw
    have := hs.toks
    omega

theorem Ledger.ledger_step {p : GenParams} (hp : p.WF) (genFn : σ → Except ε String × σ)
    {st : GenState σ ε} (hs : Shape p st) (h : Ledger st) (a : Action) :
    Ledger (step p genFn a st) := by
  cases a with
  | spawn => exact h.ledger_spawn
  | worker j => exact h.ledger_worker hp genFn hs j

end LedgerWorker

section Termination
variable {σ ε : Type}

theorem remaining_snoc (gs : List Worker) (w : Worker) :
    remaining (gs ++ [w]) = remaining gs + w.left := by
  simp [remaining]

theorem remaining_set {gs : List Worker} {j : Nat} {w : Worker} (w' : Worker)
    (hw : gs[j]? = some w) : remaining (gs.set j w') + w.left = remaining gs + w'.left := by
  induction gs generalizing j with
  | nil => simp at hw
  | cons a as ih =>
    cases j with
    | zero =>
      simp at hw
      subst hw
      simp [remaining]
      omega
    | succ j =>
      simp at hw
      have := ih hw
      simp [remaining] at this ⊢
      omega

theorem mem_running {gs : List Worker} {j : Nat} (h : j ∈ running gs) :
    ∃ w, gs[j]? = some w ∧ w.done = false := by
  unfold running at h
  rw [List.mem_filter] at h
  cases hw : gs[j]? with
  | none => rw [hw] at h; simp at h
  | some w =>
    rw [hw] at h
    exact ⟨w, rfl, by simpa using h.2⟩

theorem running_of {gs : List Worker} {j : Nat} {w : Worker} (hw : gs[j]? = some w)
    (hd : w.done = false) : j ∈ running gs := by
  unfold running
  rw [List.mem_filter]
  refine ⟨List.mem_range.2 (List.getElem?_eq_some_iff.1 hw).1, ?_⟩
  rw [hw]; simp [hd]

theorem mem_enabled {p : GenParams} {st : GenState σ ε} {a : Action} (h : a ∈ enabled p st) :
    (a = Action.spawn ∧ st.i < p.workers) ∨
    (∃ (j : Nat) (w : Worker), a = Action.worker j ∧ st.goroutines[j]? = some w ∧
      w.done = false) := by
  unfold enabled at h
  rcases List.mem_append.1 h with h | h
  · left
    by_cases hi : st.i < p.workers
    · simp only [hi, if_true, List.mem_singleton] at h
      exact ⟨h, hi⟩
    · simp [hi] at h
  · right
    obtain ⟨j, hj, hja⟩ := List.mem_map.1 h
    obtain ⟨w, hw, hd⟩ := mem_running hj
    exact ⟨j, w, hja.symm, hw, hd⟩

/-- When no action is enabled the spawning loop is over and every worker has
returned. -/
theorem enabled_nil {p : GenParams} {st : GenState σ ε} (h : enabled p st = []) :
    p.workers ≤ st.i ∧ ∀ (j : Nat) (w : Worker), st.goroutines[j]? = some w → w.done = true := by
  unfold enabled at h
  rw [List.append_eq_nil] at h
  constructor
  · by_contra hcon
    have hi : st.i < p.workers := by omega
    have := h.1
    simp [hi] at this
  · intro j w hw
    cases hd : w.done with
    | true => rfl
    | false =>
      have hm := running_of hw hd
      have := h.2
      rw [List.map_eq_nil_iff] at this
      rw [this] at hm
      simp at hm

theorem measure_spawn {p : GenParams} {st : GenState σ ε} (hi : st.i < p.workers) :
    measure p (spawnStep p st) < measure p st := by
  unfold spawnStep measure
  simp only [hi, if_true, remaining_snoc, Worker.left]
  have h1 := shardSize_le p st.i
  have h2 : p.workers - st.i = (p.workers - (st.i + 1)) + 1 := by omega
  rw [h2, Nat.succ_mul]
  simp only [Bool.false_eq_true, if_false]
  omega

theorem measure_worker {p : GenParams} (genFn : σ → Except ε String × σ)
    {st : GenState σ ε} {j : Nat} {w : Worker} (hw : st.goroutines[j]? = some w)
    (hd : w.done = false) : measure p (workerStep genFn j st) < measure p st := by
  have hc := workerStep_case genFn j st
  revert hc
  generalize workerStep genFn j st = st'
  intro hc
  have hleft : w.left = w.e - w.idx + 1 := by simp [Worker.left, hd]
  cases hc with
  | idle hidle =>
    exfalso
    rcases hidle with hn | ⟨v, hv, hdv⟩
    · rw [hw] at hn; exact Option.noConfusion hn
    · rw [hw] at hv; cases hv
      rw [hd] at hdv; exact Bool.noConfusion hdv
  | exit v hv hd' hge =>
    rw [hw] at hv; cases hv
    have := remaining_set { w with done := true } hw
    simp only [measure]
    simp only [Worker.left, if_true] at this hleft
    rw [hleft] at this
    omega
  | fail v err s' hv hd' hlt hg =>
    rw [hw] at hv; cases hv
    have := remaining_set { w with done := true } hw
    simp only [measure]
    simp only [Worker.left, if_true] at this hleft
    rw [hleft] at this
    omega
  | write v tok s' hv hd' hlt hg hin =>
    rw [hw] at hv; cases hv
    have := remaining_set { w with idx := w.idx + 1, done := false } hw
    simp only [measure]
    simp only [Worker.left, Bool.false_eq_true, if_false] at this hleft
    rw [hleft] at this
    omega
  | crash v tok s' hv hd' hlt hg hin =>
    rw [hw] at hv; cases hv
    have := remaining_set { w with done := true } hw
    simp only [measure]
    simp only [Worker.left, if_true] at this hleft
    rw [hleft] at this
    omega

end Termination

section Run
variable {σ ε : Type}

theorem pick_mem (a : Action) (as : List Action) (k : Nat) :
    (a :: as).getD (k % (as.length + 1)) a ∈ a :: as := by
  have hlt : k % (as.length + 1) < (a :: as).length := by
    simp only [List.length_cons]
    exact Nat.mod_lt _ (Nat.succ_pos _)
  rw [List.getD_eq_getElem _ _ hlt]
  exact List.getElem_mem _

theorem measure_step {p : GenParams} (genFn : σ → Except ε String × σ)
    {st : GenState σ ε} {a : Action} (h : a ∈ enabled p st) :
    measure p (step p genFn a st) < measure p st := by
  rcases mem_enabled h with ⟨ha, hi⟩ | ⟨j, w, ha, hw, hd⟩
  · subst ha; exact measure_spawn hi
  · subst ha; exact measure_worker genFn hw hd

/-- With a budget of at least `measure` steps the run ends. -/
theorem exec_ends (p : GenParams) (genFn : σ → Except ε String × σ) (sched : Nat → Nat)
    (fuel t : Nat) (st : GenState σ ε) (h : measure p st ≤ fuel) :
    enabled p (exec p genFn sched fuel t st) = [] := by
  induction fuel generalizing t st with
  | zero =>
    unfold exec
    cases hen : enabled p st with
    | nil => rfl
    | cons a as =>
      have := measure_step genFn (hen ▸ List.mem_cons_self a as : a ∈ enabled p st)
      omega
  | succ fuel ih =>
    unfold exec
    cases hen : enabled p st with
    | nil => simp only [hen]
    | cons a as =>
      simp only
      apply ih
      have hm : (a :: as).getD (sched t % (as.length + 1)) a ∈ enabled p st := by
        rw [hen]; exact pick_mem a as _
      have := measure_step genFn hm
      omega

/-- A property kept by every step holds at the end of the run. -/
theorem exec_induct (p : GenParams) (genFn : σ → Except ε String × σ) (sched : Nat → Nat)
    (P : GenState σ ε → Prop) (hstep : ∀ st a, P st → P (step p genFn a st))
    (fuel t : Nat) (st : GenState σ ε) (h : P st) : P (exec p genFn sched fuel t st) := by
  induction fuel generalizing t st with
  | zero => exact h
  | succ fuel ih =>
    unfold exec
    cases hen : enabled p st with
    | nil => exact h
    | cons a as => exact ih _ _ (hstep _ _ h)

theorem Reach.reach_init (p : GenParams) (genFn : σ → Except ε String × σ) (s0 : σ) :
    Reach p genFn s0 (initState p.count s0) :=
  ⟨Shape.shape_init p s0, Trace.trace_init genFn p.count s0, Ledger.ledger_init p.count s0⟩

theorem Reach.reach_step {p : GenParams} (hp : p.WF) {genFn : σ → Except ε String × σ} {s0 : σ}
    {st : GenState σ ε} (h : Reach p genFn s0 st) (a : Action) :
    Reach p genFn s0 (step p genFn a st) :=
  ⟨h.shape.shape_step hp genFn a, h.trace.trace_step p a, h.ledger.ledger_step hp genFn h.shape a⟩

theorem paramsOf_wf {numCPU : Nat} {count : Int} (hP : 1 ≤ numCPU) (hc : 1 ≤ count) :
    (paramsOf numCPU count).WF := by
  refine ⟨?_, rfl, rfl⟩
  simp only [paramsOf]
  split <;> omega

/-- The master statement: for a positive count and at least one CPU, under every
scheduler, `generateTokens` returns, and it returns from a final state. -/
theorem generateTokens_final (numCPU : Nat) (count : Int) (genFn : σ → Except ε String × σ)
    (s0 : σ) (sched : Nat → Nat) (hP : 1 ≤ numCPU) (hc : 1 ≤ count) :
    ∃ st : GenState σ ε, generateTokens numCPU count genFn s0 sched = some (finish st) ∧
      Final (paramsOf numCPU count) genFn s0 st := by
  have hwf := paramsOf_wf hP hc
  let p := paramsOf numCPU count
  let st : GenState σ ε := exec p genFn sched (p.workers * (p.base + 3)) 0 (initState p.count s0)
  have hreach : Reach p genFn s0 st :=
    exec_induct p genFn sched (Reach p genFn s0) (fun _ a h => h.reach_step hwf a) _ _ _
      (Reach.reach_init p genFn s0)
  have hend : enabled p st = [] := by
    apply exec_ends
    simp [measure, initState, remaining]
  have hnil := enabled_nil hend
  refine ⟨st, ?_, hreach, ?_, hnil.2⟩
  · unfold generateTokens
    have h1 : ¬ count ≤ 0 := by omega
    have h2 : ¬ (if numCPU > count.toNat then count.toNat else numCPU) = 0 := by
      have := hwf.pos
      simp only [paramsOf] at this
      omega
    simp only [h1, if_false, h2]
    have h3 : st.panicked = false := hreach.shape.pan
    change (if st.panicked || !(enabled p st).isEmpty then none else some (finish st)) = _
    rw [h3, hend]
    rfl
  · exact Nat.le_antisymm hreach.shape.iW hnil.1

end Run

section FinalFacts
variable {σ ε : Type}

theorem finish_calls (st : GenState σ ε) : (finish st).calls = st.calls := by
  unfold finish; cases st.firstErr <;> rfl

theorem finish_prod (st : GenState σ ε) : (finish st).prod = st.prod := by
  unfold finish; cases st.firstErr <;> rfl

theorem finish_shards (st : GenState σ ε) :
    (finish st).shards = st.goroutines.map (fun w => (w.s, w.e)) := by
  unfold finish; cases st.firstErr <;> rfl

theorem finish_err (st : GenState σ ε) : (finish st).err = st.firstErr := by
  unfold finish; cases st.firstErr <;> rfl

theorem finish_tokens_ok {st : GenState σ ε} (h : st.firstErr = none) :
    (finish st).tokens = some st.tokens := by
  unfold finish; rw [h]

theorem finish_tokens_err {st : GenState σ ε} {e : ε} (h : st.firstErr = some e) :
    (finish st).tokens = none := by
  unfold finish; rw [h]

variable {p : GenParams} {genFn : σ → Except ε String × σ} {s0 : σ} {st : GenState σ ε}

theorem Final.worker_at (h : Final p genFn s0 st) {j : Nat} (hj : j < p.workers) :
    ∃ w, st.goroutines[j]? = some w ∧ w.s = shardStart p j ∧ w.e = shardStart p (j + 1) ∧
      w.s ≤ w.idx ∧ w.idx ≤ w.e := by
  have hlen : j < st.goroutines.length := by rw [h.shape.len, h.spawned]; exact hj
  refine ⟨st.goroutines[j], List.getElem?_eq_getElem hlen, ?_⟩
  exact h.shape.rng j _ (List.getElem?_eq_getElem hlen)

theorem Final.shards_length (h : Final p genFn s0 st) :
    (finish st).shards.length = p.workers := by
  rw [finish_shards, List.length_map, h.shape.len, h.spawned]

theorem Final.shard_at (h : Final p genFn s0 st) {j : Nat} (hj : j < p.workers) :
    (finish st).shards[j]? = some (shardStart p j, shardStart p (j + 1)) := by
  obtain ⟨w, hw, h1, h2, _⟩ := h.worker_at hj
  rw [finish_shards, List.getElem?_map, hw, Option.map_some', h1, h2]

theorem Final.shard_eq (h : Final p genFn s0 st) {j s e : Nat}
    (hj : (finish st).shards[j]? = some (s, e)) :
    j < p.workers ∧ s = shardStart p j ∧ e = shardStart p (j + 1) := by
  have hlt : j < p.workers := by
    rw [← h.shards_length]; exact (List.getElem?_eq_some_iff.1 hj).1
  rw [h.shard_at hlt] at hj
  simp only [Option.some.injEq, Prod.mk.injEq] at hj
  exact ⟨hlt, hj.1.symm, hj.2.symm⟩

/-- In a final state whose error slot is empty every worker has run through its
whole range. -/
theorem Final.idx_eq (h : Final p genFn s0 st) (hne : st.firstErr = none) {j : Nat}
    {w : Worker} (hw : st.goroutines[j]? = some w) :
    w.idx = w.e ∧ (callsOf j st.calls).length = w.e - w.s := by
  rcases h.ledger.tail j w hw with ⟨h1, h2⟩ | ⟨_, _, err, _, h3⟩
  · have := h2 (h.joined j w hw)
    rw [this] at h1
    exact ⟨this, h1⟩
  · exfalso
    have hm := (callsOf_mem (List.getElem?_mem h3)).1
    exact h.trace.err2 _ hm err rfl hne

/-- In a final state whose error slot is empty, slot `i` holds the result of
call number `i - s` of the worker whose range `[s, e)` contains `i`. -/
theorem Final.slot (hp : p.WF) (h : Final p genFn s0 st) (hne : st.firstErr = none)
    {i : Nat} (hi : i < p.count) :
    ∃ j tok, j < p.workers ∧ shardStart p j ≤ i ∧ i < shardStart p (j + 1) ∧
      (callsOf j st.calls)[i - shardStart p j]? = some ⟨j, i, Except.ok tok⟩ ∧
      st.tokens[i]? = some tok := by
  rw [← shardStart_workers hp] at hi
  obtain ⟨j, hj, h1, h2⟩ := shard_exists p p.workers i hi
  obtain ⟨w, hw, hs, he, _, _⟩ := h.worker_at hj
  have hidx := (h.idx_eq hne hw).1
  obtain ⟨tok, h3, h4⟩ := h.ledger.slots j w hw (i - w.s) (by omega)
  have : w.s + (i - w.s) = i := by omega
  rw [this] at h3 h4
  rw [hs] at h3
  exact ⟨j, tok, hj, h1, h2, h3, h4⟩

theorem Final.call_lt (hp : p.WF) (h : Final p genFn s0 st) {c : Call ε} (hc : c ∈ st.calls) :
    c.idx < p.count := by
  obtain ⟨w, hw, _, h2, _⟩ := h.ledger.own c hc
  have := h.shape.e_le_count hp hw
  omega

/-- In a final state whose error slot is empty the indices of the recorded
calls are the numbers below `count`, each once. -/
theorem Final.perm (hp : p.WF) (h : Final p genFn s0 st) (hne : st.firstErr = none) :
    (st.calls.map (fun c => c.idx)).Perm (List.range p.count) := by
  rw [List.perm_ext_iff_of_nodup h.ledger.nodup (List.nodup_range _)]
  intro i
  rw [List.mem_range]
  constructor
  · intro hi
    obtain ⟨c, hc, hci⟩ := List.mem_map.1 hi
    rw [← hci]
    exact h.call_lt hp hc
  · intro hi
    obtain ⟨j, tok, _, _, _, h3, _⟩ := h.slot hp hne hi
    exact List.mem_map.2 ⟨_, (callsOf_mem (List.getElem?_mem h3)).1, rfl⟩

theorem Final.calls_length (hp : p.WF) (h : Final p genFn s0 st) (hne : st.firstErr = none) :
    st.calls.length = p.count := by
  have := (h.perm hp hne).length_eq
  simpa using this

/-- When the producer cannot fail the error slot stays empty. -/
theorem Trace.no_error (h : Trace genFn s0 st) (hok : ∀ s, ∃ tok, (genFn s).1 = Except.ok tok) :
    st.firstErr = none := by
  cases hf : st.firstErr with
  | none => rfl
  | some e =>
    exfalso
    obtain ⟨c, hc, hce⟩ := h.err1 e hf
    have hm : c.res ∈ (history genFn s0 st.calls.length).1 := by
      rw [h.hist]; exact List.mem_map.2 ⟨c, hc, rfl⟩
    obtain ⟨s, hs⟩ := history_mem genFn s0 _ _ hm
    obtain ⟨tok, ht⟩ := hok s
    rw [hce, ht] at hs
    exact Except.noConfusion hs

end FinalFacts

section Rand
variable {ρ : Type}

theorem letters_length : letters.length = 62 := by decide

theorem letters_nodup : letters.Nodup := by decide

theorem letters_ascii : ∀ c ∈ letters, c.toNat < 128 := by decide

theorem letters_alphanum : ∀ c ∈ letters, c.isAlphanum = true := by decide

theorem alphanum_mem_letters (c : Char) (h : c.isAlphanum = true) : c ∈ letters := by
  have hc : c = Char.ofNat c.toNat := (Char.ofNat_toNat c).symm
  have hb : (48 ≤ c.toNat ∧ c.toNat ≤ 57) ∨ (65 ≤ c.toNat ∧ c.toNat ≤ 90) ∨
      (97 ≤ c.toNat ∧ c.toNat ≤ 122) := by
    simp only [Char.isAlphanum, Char.isAlpha, Char.isUpper, Char.isLower, Char.isDigit,
      Bool.or_eq_true, Bool.and_eq_true, decide_eq_true_eq] at h
    simp only [Char.toNat]
    rcases h with (⟨h1, h2⟩ | ⟨h1, h2⟩) | ⟨h1, h2⟩
    · right; left; exact ⟨h1, h2⟩
    · right; right; exact ⟨h1, h2⟩
    · left; exact ⟨h1, h2⟩
  generalize c.toNat = k at hc hb
  subst hc
  rcases hb with ⟨h1, h2⟩ | ⟨h1, h2⟩ | ⟨h1, h2⟩ <;> interval_cases k <;> decide

theorem randStringLoop_spec (intn : Nat → ρ → Nat × ρ) (hintn : ∀ s, (intn 62 s).1 < 62)
    (k i : Nat) (b : List Char) (s : ρ) (hlen : i + k ≤ b.length) :
    ∃ b' s', randStringLoop intn k i b s = some (b', s') ∧ b'.length = b.length ∧
      (∀ q, q < i → b'[q]? = b[q]?) ∧
      (∀ q, i ≤ q → q < i + k → ∃ c, c ∈ letters ∧ b'[q]? = some c) := by
  induction k generalizing i b s with
  | zero =>
    refine ⟨b, s, rfl, rfl, fun _ _ => rfl, ?_⟩
    intro q h1 h2; omega
  | succ k ih =>
    have hr : (intn letters.length s).1 < letters.length := by
      rw [letters_length]; exact hintn s
    obtain ⟨b', s', h1, h2, h3, h4⟩ :=
      ih (i + 1) (b.set i letters[(intn letters.length s).1]) (intn letters.length s).2
        (by rw [List.length_set]; omega)
    refine ⟨b', s', ?_, ?_, ?_, ?_⟩
    · rw [randStringLoop, List.getElem?_eq_getElem hr]
      exact h1
    · rw [h2, List.length_set]
    · intro q hq
      rw [h3 q (by omega), List.getElem?_set_ne (by omega)]
    · intro q hq1 hq2
      rcases Nat.eq_or_lt_of_le hq1 with heq | hlt
      · subst heq
        refine ⟨letters[(intn letters.length s).1], List.getElem_mem _, ?_⟩
        rw [h3 i (by omega), List.getElem?_set_self (by omega)]
      · exact h4 q (by omega) (by omega)

theorem utf8Len_ascii (cs : List Char) (h : ∀ c ∈ cs, c.toNat < 128) :
    String.utf8Len cs = cs.length := by
  induction cs with
  | nil => rfl
  | cons c cs ih =>
    have hc := h c (List.mem_cons_self _ _)
    have hsize : c.utf8Size = 1 := by
      simp only [Char.toNat] at hc
      simp only [Char.utf8Size]
      have h127 : c.val ≤ 127 := by
        show c.val.toNat ≤ 127
        omega
      exact if_pos h127
    rw [String.utf8Len_cons, ih (fun d hd => h d (List.mem_cons_of_mem _ hd)), hsize,
      List.length_cons]

/-- The result of `randString`: it returns, with `n` characters and `n` bytes
from `letters`. -/
theorem randString_spec (intn : Nat → ρ → Nat × ρ) (n : Int) (s : ρ) (hn : 0 ≤ n)
    (hintn : ∀ s, (intn 62 s).1 < 62) :
    ∃ str s', randString intn n s = some (str, s') ∧
      (str.length : Int) = n ∧ (str.utf8ByteSize : Int) = n ∧
      (∀ c ∈ str.data, c ∈ letters) := by
  have hn' : ¬ n < 0 := by omega
  obtain ⟨b, s', h1, h2, _, h4⟩ := randStringLoop_spec intn hintn n.toNat 0
    (List.replicate n.toNat (Char.ofNat 0)) s (by simp)
  have hb : b.length = n.toNat := by rw [h2, List.length_replicate]
  have hmem : ∀ c ∈ b, c ∈ letters := by
    intro c hc
    obtain ⟨q, hq, hqc⟩ := List.getElem_of_mem hc
    obtain ⟨d, hd, hqd⟩ := h4 q (Nat.zero_le _) (by omega)
    rw [List.getElem?_eq_getElem hq, hqc] at hqd
    cases hqd
    exact hd
  refine ⟨String.mk b, s', ?_, ?_, ?_, hmem⟩
  · unfold randString
    rw [if_neg hn', h1]
  · show ((b.length : Nat) : Int) = n
    rw [hb]; omega
  · rw [String.utf8ByteSize_mk, utf8Len_ascii b (fun c hc => letters_ascii c (hmem c hc)), hb]
    omega

/-- C9: for every `n ≥ 0` and every state of a generator whose `Intn(62)` returns
a value below 62, `randString n` returns, and its result has exactly `n`
characters and `n` bytes, each in the table `letters`; the table has exactly 62
pairwise distinct ASCII entries, which are the characters a-z, A-Z, 0-9. -/
theorem randString_alphabet (intn : Nat → ρ → Nat × ρ) (n : Int) (s : ρ) (hn : 0 ≤ n)
    (hintn : ∀ s, (intn 62 s).1 < 62) :
    ∃ str s', randString intn n s = some (str, s') ∧
      (str.length : Int) = n ∧ (str.utf8ByteSize : Int) = n ∧
      (∀ c ∈ str.data, c ∈ letters) ∧
      letters.length = 62 ∧ letters.Nodup ∧ (∀ c ∈ letters, c.toNat < 128) ∧
      (∀ c : Char, c ∈ letters ↔ c.isAlphanum = true) := by
  obtain ⟨str, s', h1, h2, h3, h4⟩ := randString_spec intn n s hn hintn
  exact ⟨str, s', h1, h2, h3, h4, letters_length, letters_nodup, letters_ascii,
    fun c => ⟨letters_alphanum c, alphanum_mem_letters c⟩⟩

/-- C9, test witness: `randString(16)` as in `TestRandStringLength`. -/
theorem randString_alphabet_witness :
    ((0 : Int) ≤ 16 ∧ ∀ s, (lcgIntn 62 s).1 < 62) ∧
    ∃ str s', randString lcgIntn 16 5 = some (str, s') ∧
      (str.length : Int) = 16 ∧ (str.utf8ByteSize : Int) = 16 ∧
      (∀ c ∈ str.data, c ∈ letters) ∧
      letters.length = 62 ∧ letters.Nodup ∧ (∀ c ∈ letters, c.toNat < 128) ∧
      (∀ c : Char, c ∈ letters ↔ c.isAlphanum = true) :=
  ⟨⟨by decide, fun _ => Nat.mod_lt _ (by decide)⟩,
    randString_alphabet lcgIntn 16 5 (by decide) (fun _ => Nat.mod_lt _ (by decide))⟩

/-- C10: for every state of a generator whose `Intn(62)` returns a value below 62
and every clock reading, `baseClaims` returns a record whose `Sub` is the
result of `randString(16)` on the given state, whose `Rnd` is the result of
`randString(16)` on the state left by the first draw, both of 16 characters and
16 bytes from the alphanumeric table `letters`, and whose `Iat` is the whole
seconds of the clock reading. -/
theorem baseClaims_fields (intn : Nat → ρ → Nat × ρ) (clock : Time) (s : ρ)
    (hintn : ∀ s, (intn 62 s).1 < 62) :
    ∃ sub s1 rnd s2, randString intn 16 s = some (sub, s1) ∧
      randString intn 16 s1 = some (rnd, s2) ∧
      baseClaims intn clock s = some ({ Sub := sub, Iat := clock.sec, Rnd := rnd }, s2) ∧
      sub.length = 16 ∧ rnd.length = 16 ∧ sub.utf8ByteSize = 16 ∧ rnd.utf8ByteSize = 16 ∧
      (∀ c ∈ sub.data, c ∈ letters ∧ c.isAlphanum = true) ∧
      (∀ c ∈ rnd.data, c ∈ letters ∧ c.isAlphanum = true) := by
  obtain ⟨sub, s1, h1, h2, h2b, h3⟩ := randString_spec intn 16 s (by decide) hintn
  obtain ⟨rnd, s2, h4, h5, h5b, h6⟩ := randString_spec intn 16 s1 (by decide) hintn
  refine ⟨sub, s1, rnd, s2, h1, h4, ?_, by omega, by omega, by omega, by omega, ?_, ?_⟩
  · unfold baseClaims
    simp only [randLen]
    rw [h1]
    simp only
    rw [h4]
    rfl
  · intro c hc
    exact ⟨h3 c hc, letters_alphanum c (h3 c hc)⟩
  · intro c hc
    exact ⟨h6 c hc, letters_alphanum c (h6 c hc)⟩

/-- C10, witness: a clock reading and a generator state. -/
theorem baseClaims_fields_witness :
    (∀ s, (lcgIntn 62 s).1 < 62) ∧
    ∃ sub s1 rnd s2, randString lcgIntn 16 5 = some (sub, s1) ∧
      randString lcgIntn 16 s1 = some (rnd, s2) ∧
      baseClaims lcgIntn ⟨1700000000, 123456789⟩ 5 =
        some ({ Sub := sub, Iat := 1700000000, Rnd := rnd }, s2) ∧
      sub.length = 16 ∧ rnd.length = 16 ∧ sub.utf8ByteSize = 16 ∧ rnd.utf8ByteSize = 16 ∧
      (∀ c ∈ sub.data, c ∈ letters ∧ c.isAlphanum = true) ∧
      (∀ c ∈ rnd.data, c ∈ letters ∧ c.isAlphanum = true) :=
  ⟨fun _ => Nat.mod_lt _ (by decide),
    baseClaims_fields lcgIntn ⟨1700000000, 123456789⟩ 5 (fun _ => Nat.mod_lt _ (by decide))⟩

end Rand

section Claims
variable {σ ε : Type}

theorem paramsOf_count (numCPU n : Nat) : (paramsOf numCPU (n : Int)).count = n := by
  simp [paramsOf]

theorem paramsOf_workers (numCPU n : Nat) :
    (paramsOf numCPU (n : Int)).workers = min numCPU n := by
  simp only [paramsOf, Int.toNat_ofNat, Nat.min_def]
  split <;> split <;> omega

theorem paramsOf_base (numCPU n : Nat) :
    (paramsOf numCPU (n : Int)).base = n / min numCPU n := by
  have := paramsOf_workers numCPU n
  simp only [paramsOf, Int.toNat_ofNat] at this ⊢
  rw [this]

theorem paramsOf_rem (numCPU n : Nat) :
    (paramsOf numCPU (n : Int)).rem = n % min numCPU n := by
  have := paramsOf_workers numCPU n
  simp only [paramsOf, Int.toNat_ofNat] at this ⊢
  rw [this]

/-- The run of `generateTokens` for a positive count, stated over `Nat`. -/
theorem generateTokens_run (numCPU n : Nat) (genFn : σ → Except ε String × σ) (s0 : σ)
    (sched : Nat → Nat) (hP : 1 ≤ numCPU) (hn : 1 ≤ n) :
    ∃ st : GenState σ ε, generateTokens numCPU (n : Int) genFn s0 sched = some (finish st) ∧
      Final (paramsOf numCPU (n : Int)) genFn s0 st ∧ (paramsOf numCPU (n : Int)).WF := by
  have hc : (1 : Int) ≤ (n : Int) := by omega
  obtain ⟨st, h1, h2⟩ := generateTokens_final numCPU (n : Int) genFn s0 sched hP hc
  exact ⟨st, h1, h2, paramsOf_wf hP hc⟩

/-- C1: for every count `n ≥ 1`, every CPU count `numCPU ≥ 1`, every producer that
never returns an error and every scheduler, `generateTokens` returns a nil error
and a token sequence of length exactly `n`, and the producer has been called
exactly `n` times in total: the recorded calls are its first `n` sequential
results and its state is the one after `n` calls. -/
theorem generateTokens_all_count (numCPU n : Nat) (genFn : σ → Except ε String × σ) (s0 : σ)
    (sched : Nat → Nat) (hP : 1 ≤ numCPU) (hn : 1 ≤ n)
    (hok : ∀ s, ∃ tok, (genFn s).1 = Except.ok tok) :
    ∃ out toks, generateTokens numCPU (n : Int) genFn s0 sched = some out ∧
      out.err = none ∧ out.tokens = some toks ∧ toks.length = n ∧
      out.calls.length = n ∧
      (out.calls.map (fun c => c.res), out.prod) = history genFn s0 n := by
  obtain ⟨st, hrun, hfin, hwf⟩ := generateTokens_run numCPU n genFn s0 sched hP hn
  have hne := hfin.trace.no_error hok
  have hlen := hfin.calls_length hwf hne
  rw [paramsOf_count] at hlen
  refine ⟨finish st, st.tokens, hrun, ?_, finish_tokens_ok hne, ?_, ?_, ?_⟩
  · rw [finish_err, hne]
  · rw [hfin.shape.toks, paramsOf_count]
  · rw [finish_calls, hlen]
  · rw [finish_calls, finish_prod, ← hlen, hfin.trace.hist]

/-- C1, test witness: the counting producer of the test suite on 4 CPUs, count 10. -/
theorem generateTokens_all_count_witness :
    (1 ≤ 4 ∧ 1 ≤ 10 ∧ ∀ s, ∃ tok, (countingGen s).1 = Except.ok tok) ∧
    ∃ out toks, generateTokens 4 ((10 : Nat) : Int) countingGen 0 (fun t => 3 * t + 1) = some out ∧
      out.err = none ∧ out.tokens = some toks ∧ toks.length = 10 ∧
      out.calls.length = 10 ∧
      (out.calls.map (fun c => c.res), out.prod) = history countingGen 0 10 :=
  ⟨⟨by decide, by decide, fun _ => ⟨"tok", rfl⟩⟩,
    generateTokens_all_count 4 10 countingGen 0 (fun t => 3 * t + 1) (by decide) (by decide)
      (fun _ => ⟨"tok", rfl⟩)⟩

/-- Result number `m` of the sequential history is what the producer returns on
the state left by the `m` calls before it. -/
theorem history_get (genFn : σ → Except ε String × σ) (s0 : σ) (m n : Nat) (h : m < n) :
    (history genFn s0 n).1[m]? = some (genFn (history genFn s0 m).2).1 := by
  induction n with
  | zero => omega
  | succ n ih =>
    simp only [history]
    rcases Nat.lt_or_ge m n with hlt | hge
    · rw [List.getElem?_append_left (by rw [history_length]; exact hlt)]
      exact ih hlt
    · have hmn : m = n := by omega
      subst hmn
      rw [List.getElem?_append_right (by rw [history_length]), history_length, Nat.sub_self]
      rfl

/-- A token sequence read back slot by slot. -/
theorem map_range_getD (toks : List String) (n : Nat) (h : toks.length = n) :
    (List.range n).map (fun i => toks.getD i "") = toks := by
  apply List.ext_getElem?
  intro i
  rw [List.getElem?_map]
  rcases Nat.lt_or_ge i n with hi | hi
  · rw [List.getElem?_range hi, Option.map_some', List.getD_eq_getElem _ _ (by omega),
      List.getElem?_eq_getElem (by omega)]
  · rw [List.getElem?_eq_none (by simpa using hi), List.getElem?_eq_none (by omega)]
    rfl

/-- C2: for every count `n ≥ 1`, every CPU count `numCPU ≥ 1`, every producer that
never returns an error and every scheduler, the recorded calls are the first
`n` sequential calls of the producer, and slot `i` of the returned sequence
holds the result of the call made for request `i`: that call is call number
`i - s` of the worker whose range `[s, e)` contains `i`, it is call number `m`
of the producer for some `m < n`, and the slot holds what the producer returns
on the state left by the `m` calls before it. So the returned tokens are the
first `n` results of the producer, rearranged by request, and when the call
made for request `i` returns `f i` the returned sequence is
`[f 0, ..., f (n - 1)]`. -/
theorem generateTokens_slot_order (numCPU n : Nat) (genFn : σ → Except ε String × σ) (s0 : σ)
    (sched : Nat → Nat) (hP : 1 ≤ numCPU) (hn : 1 ≤ n)
    (hok : ∀ s, ∃ tok, (genFn s).1 = Except.ok tok) :
    ∃ out toks, generateTokens numCPU (n : Int) genFn s0 sched = some out ∧
      out.tokens = some toks ∧ toks.length = n ∧
      (out.calls.map (fun c => c.res), out.prod) = history genFn s0 n ∧
      (∀ i, i < n → ∃ j s e m tok, out.shards[j]? = some (s, e) ∧ s ≤ i ∧ i < e ∧
        (callsOf j out.calls)[i - s]? = some ⟨j, i, Except.ok tok⟩ ∧
        m < n ∧ out.calls[m]? = some ⟨j, i, Except.ok tok⟩ ∧
        (genFn (history genFn s0 m).2).1 = Except.ok tok ∧ toks[i]? = some tok) ∧
      (toks.map (fun t => (Except.ok t : Except ε String))).Perm (history genFn s0 n).1 ∧
      (∀ f : Nat → String,
        (∀ m c, out.calls[m]? = some c →
          (genFn (history genFn s0 m).2).1 = Except.ok (f c.idx)) →
        toks = (List.range n).map f) := by
  obtain ⟨st, hrun, hfin, hwf⟩ := generateTokens_run numCPU n genFn s0 sched hP hn
  have hne := hfin.trace.no_error hok
  have hlen : st.tokens.length = n := by rw [hfin.shape.toks, paramsOf_count]
  have hcalls : st.calls.length = n := by
    have := hfin.calls_length hwf hne
    rw [paramsOf_count] at this
    exact this
  have hhist : (st.calls.map (fun c => c.res), st.prod) = history genFn s0 n := by
    rw [← hcalls, hfin.trace.hist]
  have hres : (history genFn s0 n).1 = st.calls.map (fun c => c.res) := by rw [← hhist]
  have hslot : ∀ i, i < n → ∃ j s e m tok, (finish st).shards[j]? = some (s, e) ∧ s ≤ i ∧ i < e ∧
      (callsOf j (finish st).calls)[i - s]? = some ⟨j, i, Except.ok tok⟩ ∧
      m < n ∧ (finish st).calls[m]? = some ⟨j, i, Except.ok tok⟩ ∧
      (genFn (history genFn s0 m).2).1 = Except.ok tok ∧ st.tokens[i]? = some tok := by
    intro i hi
    rw [← paramsOf_count numCPU n] at hi
    obtain ⟨j, tok, hj, h1, h2, h3, h4⟩ := hfin.slot hwf hne hi
    obtain ⟨m, hm⟩ := List.getElem?_of_mem (callsOf_mem (List.getElem?_mem h3)).1
    have hmn : m < n := by
      rw [← hcalls]; exact (List.getElem?_eq_some_iff.1 hm).1
    have hgen : (genFn (history genFn s0 m).2).1 = Except.ok tok := by
      have h5 := history_get genFn s0 m n hmn
      rw [hres, List.getElem?_map, hm] at h5
      simp only [Option.map_some', Option.some.injEq] at h5
      exact h5.symm
    exact ⟨j, _, _, m, tok, hfin.shard_at hj, h1, h2, by rw [finish_calls]; exact h3, hmn,
      by rw [finish_calls]; exact hm, hgen, h4⟩
  refine ⟨finish st, st.tokens, hrun, finish_tokens_ok hne, hlen, ?_, hslot, ?_, ?_⟩
  · rw [finish_calls, finish_prod]; exact hhist
  · have hcall : ∀ c ∈ st.calls, c.res = Except.ok (st.tokens.getD c.idx "") := by
      intro c hc
      have hi : c.idx < n := by
        have := hfin.call_lt hwf hc
        rw [paramsOf_count] at this
        exact this
      obtain ⟨j, s, e, m, tok, _, _, _, _, _, h6, _, h8⟩ := hslot c.idx hi
      rw [finish_calls] at h6
      have hc' := List.getElem?_mem h6
      have heq := List.inj_on_of_nodup_map hfin.ledger.nodup hc hc' rfl
      rw [List.getD_eq_getElem?_getD, h8, heq]
      rfl
    have h1 : st.calls.map (fun c => c.res) =
        (st.calls.map (fun c => c.idx)).map
          (fun i => (Except.ok (st.tokens.getD i "") : Except ε String)) := by
      rw [List.map_map]
      exact List.map_congr_left hcall
    have hperm := hfin.perm hwf hne
    rw [paramsOf_count] at hperm
    have h2 := hperm.map (fun i => (Except.ok (st.tokens.getD i "") : Except ε String))
    rw [← h1, ← hres] at h2
    have h3 : (List.range n).map (fun i => (Except.ok (st.tokens.getD i "") : Except ε String)) =
        st.tokens.map (fun t => (Except.ok t : Except ε String)) := by
      conv_rhs => rw [← map_range_getD st.tokens n hlen]
      rw [List.map_map]
      rfl
    rw [h3] at h2
    exact h2.symm
  · intro f hf
    apply List.ext_getElem?
    intro i
    rcases Nat.lt_or_ge i n with hi | hi
    · obtain ⟨j, s, e, m, tok, _, _, _, _, _, h6, h7, h8⟩ := hslot i hi
      have := hf m _ h6
      rw [h7] at this
      simp only [Except.ok.injEq] at this
      rw [h8, this, List.getElem?_map, List.getElem?_range hi]
      rfl
    · rw [List.getElem?_eq_none (by omega), List.getElem?_eq_none (by simp; omega)]

/-- C2, witness: three CPUs, seven requests and a scheduler that interleaves the
workers; the producer numbers its results, so the slots show which call served
which request: worker 0 owns `[0, 3)`, worker 1 `[3, 5)`, worker 2 `[5, 7)`. -/
theorem generateTokens_slot_order_witness :
    ((1 ≤ 3 ∧ 1 ≤ 7 ∧ ∀ s, ∃ tok, (numberingGen s).1 = Except.ok tok) ∧
      (generateTokens 3 ((7 : Nat) : Int) numberingGen 0 (fun t => t)).map
          (fun o => (o.shards, o.calls.map (fun c => (c.worker, c.idx)), o.tokens)) =
        some ([(0, 3), (3, 5), (5, 7)],
          [(0, 0), (1, 3), (2, 5), (0, 1), (1, 4), (2, 6), (0, 2)],
          some ["0", "3", "6", "1", "4", "2", "5"])) ∧
    ∃ out toks, generateTokens 3 ((7 : Nat) : Int) numberingGen 0 (fun t => t) = some out ∧
      out.tokens = some toks ∧ toks.length = 7 ∧
      (out.calls.map (fun c => c.res), out.prod) = history numberingGen 0 7 ∧
      (∀ i, i < 7 → ∃ j s e m tok, out.shards[j]? = some (s, e) ∧ s ≤ i ∧ i < e ∧
        (callsOf j out.calls)[i - s]? = some ⟨j, i, Except.ok tok⟩ ∧
        m < 7 ∧ out.calls[m]? = some ⟨j, i, Except.ok tok⟩ ∧
        (numberingGen (history numberingGen 0 m).2).1 = Except.ok tok ∧ toks[i]? = some tok) ∧
      (toks.map (fun t => (Except.ok t : Except String String))).Perm
        (history numberingGen 0 7).1 ∧
      (∀ f : Nat → String,
        (∀ m c, out.calls[m]? = some c →
          (numberingGen (history numberingGen 0 m).2).1 = Except.ok (f c.idx)) →
        toks = (List.range 7).map f) :=
  ⟨⟨⟨by decide, by decide, fun s => ⟨toString s, rfl⟩⟩, by decide⟩,
    generateTokens_slot_order 3 7 numberingGen 0 (fun t => t) (by decide) (by decide)
      (fun s => ⟨toString s, rfl⟩)⟩

end Claims

section Claims2
variable {σ ε : Type}

/-- C3, as stated, fails: on one CPU with count 2 and a producer that fails, the
single worker owns `[0, 2)`, returns at its first call, and index 1 is never
produced. -/
theorem generateTokens_index_not_produced :
    ∃ out, generateTokens 1 ((2 : Nat) : Int) failingGen () (fun _ => 0) = some out ∧
      out.shards = [(0, 2)] ∧ (out.calls.map (fun c => c.idx)).count 1 = 0 ∧
      ¬ (∀ i, i < 2 → (out.calls.map (fun c => c.idx)).count i = 1) := by
  refine ⟨_, rfl, by decide, by decide, ?_⟩
  intro h
  have := h 1 (by decide)
  revert this
  decide

/-- C3, amended: for every count `n ≥ 1`, every CPU count `numCPU ≥ 1`, every
producer and every scheduler, the ranges given to the workers are contiguous
and disjoint and cover exactly `[0, n)`: the first starts at 0, each ends where
the next starts, the last ends at `n`, and every index below `n` lies in exactly
one range. The producer is called for an index at most once and only by the
worker whose range holds it, and exactly once when no call returns an error. -/
theorem generateTokens_shards_partition (numCPU n : Nat) (genFn : σ → Except ε String × σ)
    (s0 : σ) (sched : Nat → Nat) (hP : 1 ≤ numCPU) (hn : 1 ≤ n) :
    ∃ out, generateTokens numCPU (n : Int) genFn s0 sched = some out ∧
      out.shards.length = min numCPU n ∧
      (∃ e, out.shards[0]? = some (0, e)) ∧
      (∀ j s e, out.shards[j]? = some (s, e) → j + 1 < out.shards.length →
        ∃ e', out.shards[j + 1]? = some (e, e')) ∧
      (∃ s, out.shards[out.shards.length - 1]? = some (s, n)) ∧
      (∀ i, i < n → ∃! j : Nat, ∃ s e, out.shards[j]? = some (s, e) ∧ s ≤ i ∧ i < e) ∧
      (∀ c ∈ out.calls, ∃ s e, out.shards[c.worker]? = some (s, e) ∧ s ≤ c.idx ∧ c.idx < e) ∧
      (∀ i, (out.calls.map (fun c => c.idx)).count i ≤ 1) ∧
      ((∀ c ∈ out.calls, ∀ err, c.res ≠ Except.error err) →
        ∀ i, i < n → (out.calls.map (fun c => c.idx)).count i = 1) := by
  obtain ⟨st, hrun, hfin, hwf⟩ := generateTokens_run numCPU n genFn s0 sched hP hn
  have hW := paramsOf_workers numCPU n
  have hlen := hfin.shards_length
  have hpos := hwf.pos
  refine ⟨finish st, hrun, by rw [hlen, hW], ?_, ?_, ?_, ?_, ?_, ?_, ?_⟩
  · refine ⟨shardStart (paramsOf numCPU (n : Int)) (0 + 1), ?_⟩
    rw [hfin.shard_at hpos, shardStart_zero]
  · intro j s e hj hj1
    rw [hlen] at hj1
    obtain ⟨_, _, he⟩ := hfin.shard_eq hj
    exact ⟨_, by rw [hfin.shard_at hj1, he]⟩
  · refine ⟨shardStart (paramsOf numCPU (n : Int)) ((paramsOf numCPU (n : Int)).workers - 1), ?_⟩
    rw [hlen, hfin.shard_at (by omega)]
    have : (paramsOf numCPU (n : Int)).workers - 1 + 1 = (paramsOf numCPU (n : Int)).workers := by
      omega
    rw [this, shardStart_workers hwf, paramsOf_count]
  · intro i hi
    have hi' : i < shardStart (paramsOf numCPU (n : Int)) (paramsOf numCPU (n : Int)).workers := by
      rw [shardStart_workers hwf, paramsOf_count]; exact hi
    obtain ⟨j, hj, h1, h2⟩ := shard_exists _ _ i hi'
    refine ⟨j, ⟨_, _, hfin.shard_at hj, h1, h2⟩, ?_⟩
    rintro k ⟨s, e, hk, hk1, hk2⟩
    obtain ⟨_, hs, he⟩ := hfin.shard_eq hk
    subst hs; subst he
    exact shard_unique _ hk1 hk2 h1 h2
  · intro c hc
    rw [finish_calls] at hc
    obtain ⟨w, hw, h1, h2, _⟩ := hfin.ledger.own c hc
    refine ⟨w.s, w.e, ?_, h1, h2⟩
    rw [finish_shards, List.getElem?_map, hw]
    rfl
  · intro i
    rw [finish_calls]
    exact List.nodup_iff_count_le_one.1 hfin.ledger.nodup i
  · intro hall i hi
    rw [finish_calls] at hall ⊢
    have hne : st.firstErr = none := by
      cases hf : st.firstErr with
      | none => rfl
      | some err =>
        obtain ⟨c, hc, hce⟩ := hfin.trace.err1 err hf
        exact absurd hce (hall c hc err)
    have hperm := hfin.perm hwf hne
    rw [hperm.count_eq, paramsOf_count]
    exact List.count_eq_one_of_mem (List.nodup_range n) (List.mem_range.2 hi)

/-- C3, witness: three CPUs and count 7 under an interleaving scheduler. -/
theorem generateTokens_shards_partition_witness :
    (1 ≤ 3 ∧ 1 ≤ 7) ∧
    ∃ out, generateTokens 3 ((7 : Nat) : Int) countingGen 0 (fun t => t * t) = some out ∧
      out.shards.length = min 3 7 ∧
      (∃ e, out.shards[0]? = some (0, e)) ∧
      (∀ j s e, out.shards[j]? = some (s, e) → j + 1 < out.shards.length →
        ∃ e', out.shards[j + 1]? = some (e, e')) ∧
      (∃ s, out.shards[out.shards.length - 1]? = some (s, 7)) ∧
      (∀ i, i < 7 → ∃! j : Nat, ∃ s e, out.shards[j]? = some (s, e) ∧ s ≤ i ∧ i < e) ∧
      (∀ c ∈ out.calls, ∃ s e, out.shards[c.worker]? = some (s, e) ∧ s ≤ c.idx ∧ c.idx < e) ∧
      (∀ i, (out.calls.map (fun c => c.idx)).count i ≤ 1) ∧
      ((∀ c ∈ out.calls, ∀ err, c.res ≠ Except.error err) →
        ∀ i, i < 7 → (out.calls.map (fun c => c.idx)).count i = 1) :=
  ⟨⟨by decide, by decide⟩,
    generateTokens_shards_partition 3 7 countingGen 0 (fun t => t * t) (by decide) (by decide)⟩

/-- C4: for every count `n ≥ 1`, every CPU count `numCPU ≥ 1`, every producer and
every scheduler, `generateTokens` starts `W = min numCPU n ≥ 1` workers; worker
`j` gets `n / W + 1` indices when `j < n % W` and `n / W` otherwise, so two
range sizes differ by at most 1; for `n = 1000` on 8 CPUs the sizes are eight
times 125. -/
theorem generateTokens_shard_sizes (numCPU n : Nat) (genFn : σ → Except ε String × σ)
    (s0 : σ) (sched : Nat → Nat) (hP : 1 ≤ numCPU) (hn : 1 ≤ n) :
    ∃ out, generateTokens numCPU (n : Int) genFn s0 sched = some out ∧
      1 ≤ min numCPU n ∧ out.shards.length = min numCPU n ∧
      (∀ j, j < min numCPU n → ∃ s e, out.shards[j]? = some (s, e) ∧
        e = s + (if j < n % min numCPU n then n / min numCPU n + 1 else n / min numCPU n)) ∧
      (∀ (j k s e s' e' : Nat), out.shards[j]? = some (s, e) → out.shards[k]? = some (s', e') →
        s ≤ e ∧ s' ≤ e' ∧ e - s ≤ e' - s' + 1) ∧
      (numCPU = 8 → n = 1000 → out.shards.map (fun r => r.2 - r.1) = List.replicate 8 125) := by
  obtain ⟨st, hrun, hfin, hwf⟩ := generateTokens_run numCPU n genFn s0 sched hP hn
  have hW := paramsOf_workers numCPU n
  have hB := paramsOf_base numCPU n
  have hR := paramsOf_rem numCPU n
  have hlen := hfin.shards_length
  have hsize : ∀ j, shardStart (paramsOf numCPU (n : Int)) (j + 1) =
      shardStart (paramsOf numCPU (n : Int)) j +
        (if j < n % min numCPU n then n / min numCPU n + 1 else n / min numCPU n) := by
    intro j
    rw [shardStart_succ, shardSize, hB, hR]
  refine ⟨finish st, hrun, by omega, by rw [hlen, hW], ?_, ?_, ?_⟩
  · intro j hj
    rw [← hW] at hj
    exact ⟨_, _, hfin.shard_at hj, hsize j⟩
  · intro j k s e s' e' hj hk
    obtain ⟨_, hs, he⟩ := hfin.shard_eq hj
    obtain ⟨_, hs', he'⟩ := hfin.shard_eq hk
    have h1 := hsize j
    have h2 := hsize k
    rw [← hs, ← he] at h1
    rw [← hs', ← he'] at h2
    split at h1 <;> split at h2 <;> omega
  · intro h8 h1000
    subst h8; subst h1000
    apply List.ext_getElem?
    intro j
    rw [List.getElem?_map]
    rcases Nat.lt_or_ge j 8 with hj | hj
    · have hj' : j < (paramsOf 8 ((1000 : Nat) : Int)).workers := by rw [hW]; exact hj
      rw [hfin.shard_at hj', Option.map_some', hsize j]
      rw [List.getElem?_replicate]
      simp [hj]
    · rw [List.getElem?_eq_none (by rw [hlen, hW]; exact hj),
        List.getElem?_eq_none (by simpa using hj)]
      rfl

/-- C4, witness: `n = 1000` on 8 CPUs. -/
theorem generateTokens_shard_sizes_witness :
    (1 ≤ 8 ∧ 1 ≤ 1000) ∧
    ∃ out, generateTokens 8 ((1000 : Nat) : Int) countingGen 0 (fun t => 5 * t) = some out ∧
      out.shards.map (fun r => r.2 - r.1) = List.replicate 8 125 := by
  refine ⟨⟨by decide, by decide⟩, ?_⟩
  obtain ⟨out, h1, _, _, _, _, h6⟩ :=
    generateTokens_shard_sizes 8 1000 countingGen 0 (fun t => 5 * t) (by decide) (by decide)
  exact ⟨out, h1, h6 rfl rfl⟩

end Claims2

section Claims3
variable {σ ε : Type}

/-- Call number `m` of the threshold producer fails when `m ≥ k`, so an error is
among its first `n` results when `k < n`. -/
theorem failAfter_history (k n : Nat) (h : k < n) :
    Except.error "invalid argument" ∈ (history (failAfter k) 0 n).1 := by
  have hstate : ∀ m, (history (failAfter k) 0 m).2 = m := by
    intro m
    induction m with
    | zero => rfl
    | succ m ih =>
      simp only [history, ih, failAfter]
      split <;> rfl
  induction n with
  | zero => omega
  | succ n ih =>
    simp only [history, hstate]
    rcases Nat.lt_or_ge k n with hlt | hge
    · exact List.mem_append_left _ (ih hlt)
    · apply List.mem_append_right
      have : n + 1 > k := by omega
      simp [failAfter, this]

/-- Call number `m` of the sequential history is among its first `n` results
when `m < n`. -/
theorem history_call_mem (genFn : σ → Except ε String × σ) (s0 : σ) (m n : Nat) (h : m < n) :
    (genFn (history genFn s0 m).2).1 ∈ (history genFn s0 n).1 := by
  induction n with
  | zero => omega
  | succ n ih =>
    simp only [history]
    rcases Nat.lt_or_ge m n with hlt | hge
    · exact List.mem_append_left _ (ih hlt)
    · have : m = n := by omega
      subst this
      exact List.mem_append_right _ (List.mem_singleton_self _)

/-- C5: for every count `n ≥ 1`, every CPU count `numCPU ≥ 1`, every producer and
every scheduler, if a producer call made during `generateTokens` returns an
error then `generateTokens` returns a nil token sequence and a non-nil error,
which is the error of one of the calls. A call does return an error whenever
one of the first `n` sequential results of the producer is an error; so a
producer that fails on every call after its first `k`, with `k < n`, makes
`generateTokens` return a nil token sequence and a non-nil error. -/
theorem generateTokens_error_propagates (numCPU n : Nat) (genFn : σ → Except ε String × σ)
    (s0 : σ) (sched : Nat → Nat) (hP : 1 ≤ numCPU) (hn : 1 ≤ n) :
    ∃ out, generateTokens numCPU (n : Int) genFn s0 sched = some out ∧
      ((∃ c ∈ out.calls, ∃ err, c.res = Except.error err) →
        out.tokens = none ∧
        ∃ err, out.err = some err ∧ ∃ c ∈ out.calls, c.res = Except.error err) ∧
      ((∃ r ∈ (history genFn s0 n).1, ∃ err, r = Except.error err) →
        ∃ c ∈ out.calls, ∃ err, c.res = Except.error err) ∧
      (∀ k, k < n →
        (∀ m, k ≤ m → ∃ err, (genFn (history genFn s0 m).2).1 = Except.error err) →
        out.tokens = none ∧ ∃ err, out.err = some err) := by
  obtain ⟨st, hrun, hfin, hwf⟩ := generateTokens_run numCPU n genFn s0 sched hP hn
  have hfail : (∃ c ∈ (finish st).calls, ∃ err, c.res = Except.error err) →
      (finish st).tokens = none ∧
      ∃ err, (finish st).err = some err ∧ ∃ c ∈ (finish st).calls, c.res = Except.error err := by
    rintro ⟨c, hc, err, hce⟩
    rw [finish_calls] at hc
    cases hf : st.firstErr with
    | none => exact absurd hf (hfin.trace.err2 c hc err hce)
    | some e =>
      refine ⟨finish_tokens_err hf, e, by rw [finish_err, hf], ?_⟩
      rw [finish_calls]
      exact hfin.trace.err1 e hf
  have hseq : (∃ r ∈ (history genFn s0 n).1, ∃ err, r = Except.error err) →
      ∃ c ∈ (finish st).calls, ∃ err, c.res = Except.error err := by
    rintro ⟨r, hr, err, hre⟩
    rw [finish_calls]
    cases hf : st.firstErr with
    | none =>
      have hlen := hfin.calls_length hwf hf
      rw [paramsOf_count] at hlen
      rw [← hlen, hfin.trace.hist] at hr
      obtain ⟨c, hc, hcr⟩ := List.mem_map.1 hr
      exact ⟨c, hc, err, by rw [hcr, hre]⟩
    | some e =>
      obtain ⟨c, hc, hce⟩ := hfin.trace.err1 e hf
      exact ⟨c, hc, e, hce⟩
  refine ⟨finish st, hrun, hfail, hseq, ?_⟩
  intro k hk hlate
  obtain ⟨err, herr⟩ := hlate k (Nat.le_refl k)
  obtain ⟨h1, e, h2, _⟩ :=
    hfail (hseq ⟨_, history_call_mem genFn s0 k n hk, err, herr⟩)
  exact ⟨h1, e, h2⟩

/-- C5, test witness: the producer of `TestGenerateTokensErrorPropagates` (five
successes, then failures) with count 20 on 8 CPUs: the call fails. -/
theorem generateTokens_error_propagates_witness :
    (1 ≤ 8 ∧ 1 ≤ 20) ∧
    ∃ out, generateTokens 8 ((20 : Nat) : Int) (failAfter 5) 0 (fun t => t * t + 1) = some out ∧
      out.tokens = none ∧ ∃ err, out.err = some err := by
  refine ⟨⟨by decide, by decide⟩, ?_⟩
  obtain ⟨out, h1, h2, h3, _⟩ :=
    generateTokens_error_propagates 8 20 (failAfter 5) 0 (fun t => t * t + 1)
      (by decide) (by decide)
  obtain ⟨h4, err, h5, _⟩ := h2 (h3 ⟨_, failAfter_history 5 20 (by decide), _, rfl⟩)
  exact ⟨out, h1, h4, err, h5⟩

/-- C6: for every count `≤ 0`, every producer, CPU count and scheduler,
`generateTokens` returns an empty, non-nil token sequence and a nil error, and
the producer is not called: no call is recorded and its state is untouched. -/
theorem generateTokens_nonpositive (numCPU : Nat) (count : Int)
    (genFn : σ → Except ε String × σ) (s0 : σ) (sched : Nat → Nat) (h : count ≤ 0) :
    ∃ out, generateTokens numCPU count genFn s0 sched = some out ∧
      out.tokens = some [] ∧ out.err = none ∧ out.calls = [] ∧ out.prod = s0 := by
  unfold generateTokens
  rw [if_pos h]
  exact ⟨_, rfl, rfl, rfl, rfl, rfl⟩

/-- C6, witness: a negative count with a producer that would fail if called. -/
theorem generateTokens_nonpositive_witness :
    (-3 : Int) ≤ 0 ∧
    ∃ out, generateTokens 8 (-3) failingGen () (fun t => t) = some out ∧
      out.tokens = some [] ∧ out.err = none ∧ out.calls = [] ∧ out.prod = () :=
  ⟨by decide, generateTokens_nonpositive 8 (-3) failingGen () (fun t => t) (by decide)⟩

end Claims3

section FileClaims
variable {σ ε : Type}

theorem fault_readFile (fs : FileSystem) (path : String) :
    fs.fault.2.readFile path = fs.readFile path := by
  unfold FileSystem.fault
  cases fs.faults <;> rfl

theorem readFile_store (fs : FileSystem) (path content : String) :
    (fs.store path content).readFile path = some content := by
  simp [FileSystem.store, FileSystem.readFile, List.find?_cons]

/-- The parent extracted by `os.MkdirAll` is shorter than the path. -/
theorem parentPath_length (p : String) (h : p ≠ "") : (parentPath p).length < p.length := by
  have hp : p.data ≠ [] := fun e => h (String.ext e)
  have hlen : 0 < p.data.length := List.length_pos.2 hp
  have h1 : ((p.data.reverse.dropWhile (fun c => c == '/')).dropWhile (fun c => c != '/')).length
      ≤ p.data.length := by
    have a := (List.dropWhile_sublist (fun c => c != '/')
      (l := p.data.reverse.dropWhile (fun c => c == '/'))).length_le
    have b := (List.dropWhile_sublist (fun c => c == '/') (l := p.data.reverse)).length_le
    rw [List.length_reverse] at b
    omega
  show (parentPath p).data.length < p.data.length
  simp only [parentPath, List.length_reverse, List.length_drop]
  omega

/-- The depth bound of `mkdirAllAux` is never reached: any bound above the length
of the path gives the same result. -/
theorem mkdirAllAux_depth (d d2 : Nat) (p : String) (fs : FileSystem)
    (h : p.length < d) (h2 : p.length < d2) :
    mkdirAllAux (ε := ε) d p fs = mkdirAllAux d2 p fs := by
  induction d generalizing d2 p fs with
  | zero => omega
  | succ d ih =>
    cases d2 with
    | zero => omega
    | succ d2 =>
      unfold mkdirAllAux
      by_cases hpar : parentPath p = ""
      · simp [hpar]
      · have hne : p ≠ "" := by
          intro e
          apply hpar
          rw [e]
          rfl
        have hl := parentPath_length p hne
        rw [ih d2 (parentPath p) fs (by omega) (by omega)]

theorem Create_ok {dir path : String} {fs fs' : FileSystem}
    (h : Create (ε := ε) dir path fs = (none, fs')) : fs'.readFile path = some "" := by
  unfold Create at h
  rcases hf : fs.fault with ⟨b, fs1⟩
  rw [hf] at h
  cases b with
  | true => simp at h
  | false =>
    simp only at h
    split at h
    · simp only [Prod.mk.injEq, true_and] at h
      rw [← h]; exact readFile_store _ _ _
    · simp at h

/-- The environment lets every coming system call through. -/
theorem quiet_fault {fs : FileSystem} (h : ∀ b ∈ fs.faults, b = false) :
    fs.fault.1 = false ∧ (∀ b ∈ fs.fault.2.faults, b = false) ∧
      fs.fault.2.files = fs.files := by
  unfold FileSystem.fault
  cases hf : fs.faults with
  | nil => exact ⟨rfl, by rw [hf]; intro b hb; simp at hb, rfl⟩
  | cons a rest =>
    rw [hf] at h
    exact ⟨h a (List.mem_cons_self _ _), fun b hb => h b (List.mem_cons_of_mem _ hb), rfl⟩

theorem Write_quiet (path data : String) {content : String} {fs : FileSystem}
    (hq : ∀ b ∈ fs.faults, b = false) (hc : fs.readFile path = some content) :
    ∃ fs', Write (ε := ε) path data fs = (none, fs') ∧ (∀ b ∈ fs'.faults, b = false) := by
  obtain ⟨h1, h2, _⟩ := quiet_fault hq
  have hr := fault_readFile fs path
  unfold Write
  rcases hf : fs.fault with ⟨b, fs1⟩
  rw [hf] at h1 h2 hr
  simp only at h1 h2 hr
  subst h1
  simp only
  rw [hr, hc]
  exact ⟨_, rfl, h2⟩

theorem Write_ok {path data : String} {fs fs' : FileSystem}
    (h : Write (ε := ε) path data fs = (none, fs')) :
    ∃ content, fs.readFile path = some content ∧
      fs'.readFile path = some (content ++ data) := by
  unfold Write at h
  have hr := fault_readFile fs path
  rcases hf : fs.fault with ⟨b, fs1⟩
  rw [hf] at h hr
  cases b with
  | true => simp at h
  | false =>
    simp only at h hr
    cases hc : fs1.readFile path with
    | none => rw [hc] at h; simp at h
    | some content =>
      rw [hc] at h
      simp only [Prod.mk.injEq, true_and] at h
      refine ⟨content, by rw [← hr, hc], ?_⟩
      rw [← h]; exact readFile_store _ _ _

theorem Flush_ok {path : String} {w w' : Writer} {fs fs' : FileSystem} {total : String}
    (hs : Streamed path w fs total) (h : Writer.Flush (ε := ε) w fs = (none, w', fs')) :
    Streamed path w' fs' total ∧ fs'.readFile path = some total := by
  obtain ⟨hp, content, hc, ht⟩ := hs
  unfold Writer.Flush at h
  by_cases hb : w.buf = ""
  · rw [if_pos hb] at h
    simp only [Prod.mk.injEq, true_and] at h
    obtain ⟨h1, h2⟩ := h
    subst h1; subst h2
    rw [hb, String.append_empty] at ht
    exact ⟨⟨hp, content, hc, by rw [hb, String.append_empty]; exact ht⟩, by rw [hc, ht]⟩
  · rw [if_neg hb] at h
    rcases hw : Write (ε := ε) w.path w.buf fs with ⟨r, fs1⟩
    rw [hw] at h
    cases r with
    | some e => simp at h
    | none =>
      simp only [Prod.mk.injEq, true_and] at h
      obtain ⟨h1, h2⟩ := h
      subst h1; subst h2
      rw [hp] at hw
      obtain ⟨c, hc1, hc2⟩ := Write_ok hw
      rw [hc] at hc1
      cases hc1
      rw [ht] at hc2
      exact ⟨⟨hp, total, hc2, String.append_empty _⟩, hc2⟩

theorem WriteString_ok {path : String} {w w' : Writer} {fs fs' : FileSystem}
    {total s : String} (hs : Streamed path w fs total)
    (h : Writer.WriteString (ε := ε) w s fs = (none, w', fs')) :
    Streamed path w' fs' (total ++ s) := by
  have hs' : Streamed path { w with buf := w.buf ++ s } fs (total ++ s) := by
    obtain ⟨hp, content, hc, ht⟩ := hs
    exact ⟨hp, content, hc, by rw [← ht, String.append_assoc]⟩
  unfold Writer.WriteString at h
  split at h
  · simp only [Prod.mk.injEq, true_and] at h
    obtain ⟨h1, h2⟩ := h
    subst h1; subst h2
    exact hs'
  · exact (Flush_ok hs' h).1

theorem writeTokens_ok {path : String} (toks : List String) {w w' : Writer}
    {fs fs' : FileSystem} {total : String} (hs : Streamed path w fs total)
    (h : writeTokens (ε := ε) toks w fs = (none, w', fs')) :
    Streamed path w' fs' (toks.foldl (fun acc t => acc ++ t ++ "\n") total) := by
  induction toks generalizing w fs total with
  | nil =>
    simp only [writeTokens, Prod.mk.injEq, true_and] at h
    obtain ⟨h1, h2⟩ := h
    subst h1; subst h2
    exact hs
  | cons tok rest ih =>
    unfold writeTokens at h
    rcases h1 : Writer.WriteString (ε := ε) w tok fs with ⟨r1, w1, fs1⟩
    rw [h1] at h
    cases r1 with
    | some e => simp at h
    | none =>
      simp only at h
      rcases h2 : Writer.WriteByte (ε := ε) w1 '\n' fs1 with ⟨r2, w2, fs2⟩
      rw [h2] at h
      cases r2 with
      | some e => simp at h
      | none =>
        simp only at h
        have s1 := WriteString_ok hs h1
        have s2 : Streamed path w2 fs2 (total ++ tok ++ "\n") := WriteString_ok s1 h2
        exact ih s2 h

theorem Flush_quiet {path : String} {w : Writer} {fs : FileSystem} {total : String}
    (hq : ∀ b ∈ fs.faults, b = false) (hs : Streamed path w fs total) :
    ∃ w' fs', Writer.Flush (ε := ε) w fs = (none, w', fs') ∧ (∀ b ∈ fs'.faults, b = false) := by
  obtain ⟨hp, content, hc, _⟩ := hs
  unfold Writer.Flush
  by_cases hb : w.buf = ""
  · rw [if_pos hb]; exact ⟨_, _, rfl, hq⟩
  · rw [if_neg hb, hp]
    obtain ⟨fs', h1, h2⟩ := Write_quiet (ε := ε) path w.buf hq hc
    rw [h1]
    exact ⟨_, _, rfl, h2⟩

theorem WriteString_quiet {path : String} {w : Writer} {fs : FileSystem} {total : String}
    (s : String) (hq : ∀ b ∈ fs.faults, b = false) (hs : Streamed path w fs total) :
    ∃ w' fs', Writer.WriteString (ε := ε) w s fs = (none, w', fs') ∧
      (∀ b ∈ fs'.faults, b = false) := by
  unfold Writer.WriteString
  split
  · exact ⟨_, _, rfl, hq⟩
  · have hs' : Streamed path { w with buf := w.buf ++ s } fs (total ++ s) := by
      obtain ⟨hp, content, hc, ht⟩ := hs
      exact ⟨hp, content, hc, by rw [← ht, String.append_assoc]⟩
    exact Flush_quiet hq hs'

theorem writeTokens_quiet {path : String} (toks : List String) {w : Writer}
    {fs : FileSystem} {total : String} (hq : ∀ b ∈ fs.faults, b = false)
    (hs : Streamed path w fs total) :
    ∃ w' fs', writeTokens (ε := ε) toks w fs = (none, w', fs') ∧
      (∀ b ∈ fs'.faults, b = false) := by
  induction toks generalizing w fs total with
  | nil => exact ⟨_, _, rfl, hq⟩
  | cons tok rest ih =>
    obtain ⟨w1, fs1, h1, q1⟩ := WriteString_quiet (ε := ε) tok hq hs
    have s1 := WriteString_ok hs h1
    obtain ⟨w2, fs2, h2, q2⟩ := WriteString_quiet (ε := ε) (String.singleton '\n') q1 s1
    have s2 := WriteString_ok s1 h2
    obtain ⟨w3, fs3, h3, q3⟩ := ih q2 s2
    refine ⟨w3, fs3, ?_, q3⟩
    rw [writeTokens, h1]
    simp only
    rw [Writer.WriteByte, h2]
    exact h3

theorem joinLines_cons (t : String) (ts : List String) :
    joinLines (t :: ts) = t ++ "\n" ++ joinLines ts := by
  have key : ∀ (l : List String) (a : String),
      l.foldl (fun acc t => acc ++ t ++ "\n") a =
        a ++ l.foldl (fun acc t => acc ++ t ++ "\n") "" := by
    intro l
    induction l with
    | nil => intro a; simp
    | cons x xs ih =>
      intro a
      simp only [List.foldl_cons]
      rw [ih (a ++ x ++ "\n"), ih ("" ++ x ++ "\n")]
      simp only [String.empty_append, String.append_assoc]
  simp only [joinLines, List.foldl_cons, String.empty_append]
  exact key ts _

theorem linesFrom_token (acc t rest : List Char) (h : '\n' ∉ t) :
    linesFrom acc (t ++ '\n' :: rest) = String.mk (acc ++ t) :: linesFrom [] rest := by
  induction t generalizing acc with
  | nil => simp [linesFrom]
  | cons c cs ih =>
    have hc : c ≠ '\n' := fun e => h (e ▸ List.mem_cons_self _ _)
    have hcs : '\n' ∉ cs := fun e => h (List.mem_cons_of_mem _ e)
    rw [List.cons_append, linesFrom, if_neg hc, ih _ hcs]
    simp

/-- The lines of the text of a token sequence without newlines are the tokens. -/
theorem lines_joinLines (toks : List String) (h : ∀ t ∈ toks, '\n' ∉ t.data) :
    lines (joinLines toks) = toks := by
  induction toks with
  | nil => rfl
  | cons t ts ih =>
    have h1 := h t (List.mem_cons_self _ _)
    have h2 := ih (fun u hu => h u (List.mem_cons_of_mem _ hu))
    unfold lines at h2 ⊢
    rw [joinLines_cons]
    simp only [String.data_append]
    rw [List.append_assoc, List.singleton_append, linesFrom_token _ _ _ h1, h2]
    simp

/-- C7: for every path, count, producer, scheduler and file system, if the
generation fails with an error then `generateTokensToFile` returns that error
and leaves the file system as it was, the pending outcomes of system calls
included: no directory or file is created, truncated or written, and no system
call is made. -/
theorem generateTokensToFile_generation_error (dirOf : String → String) (numCPU : Nat)
    (path : String) (count : Int) (genFn : σ → Except ε String × σ) (s0 : σ)
    (sched : Nat → Nat) (fs : FileSystem) (err : ε)
    (hgen : (generateTokens numCPU count genFn s0 sched).map (fun o => o.err) =
      some (some err)) :
    generateTokensToFile dirOf numCPU path count genFn s0 sched fs =
      some (some (FileErr.generation err), fs) := by
  unfold generateTokensToFile
  cases hg : generateTokens numCPU count genFn s0 sched with
  | none => rw [hg] at hgen; simp at hgen
  | some out =>
    rw [hg] at hgen
    simp only [Option.map_some', Option.some.injEq] at hgen
    simp only [hgen]

/-- C7, witness: the failing producer of the test suite, an existing file and
pending faults: nothing is touched. -/
theorem generateTokensToFile_generation_error_witness :
    (generateTokens 8 20 (failAfter 5) 0 (fun t => t)).map (fun o => o.err) =
      some (some "invalid argument") ∧
    generateTokensToFile parentDir 8 "out/tokens.txt" 20 (failAfter 5) 0 (fun t => t)
        ⟨["tmp"], [("out/tokens.txt", "old")], [true, false]⟩ =
      some (some (FileErr.generation "invalid argument"),
        ⟨["tmp"], [("out/tokens.txt", "old")], [true, false]⟩) :=
  ⟨by decide,
    generateTokensToFile_generation_error parentDir 8 "out/tokens.txt" 20 (failAfter 5) 0
      (fun t => t) ⟨["tmp"], [("out/tokens.txt", "old")], [true, false]⟩ "invalid argument"
      (by decide)⟩

end FileClaims

section FileClaims2
variable {σ ε : Type}

/-- What a successful `generateTokens` returns: as many tokens as asked for. -/
theorem generateTokens_tokens_length (numCPU : Nat) (count : Int)
    (genFn : σ → Except ε String × σ) (s0 : σ) (sched : Nat → Nat) (out : Outcome σ ε)
    (h : generateTokens numCPU count genFn s0 sched = some out) (he : out.err = none) :
    ∃ toks, out.tokens = some toks ∧ toks.length = count.toNat := by
  rcases Int.le_or_lt count 0 with hc | hc
  · unfold generateTokens at h
    rw [if_pos hc] at h
    cases h
    refine ⟨[], rfl, ?_⟩
    rw [Int.toNat_of_nonpos hc]; rfl
  · rcases Nat.eq_zero_or_pos numCPU with hP | hP
    · exfalso
      unfold generateTokens at h
      have h1 : ¬ count ≤ 0 := by omega
      subst hP
      simp [h1] at h
    · obtain ⟨st, hrun, hfin⟩ := generateTokens_final numCPU count genFn s0 sched hP hc
      rw [h] at hrun
      cases hrun
      rw [finish_err] at he
      exact ⟨st.tokens, finish_tokens_ok he, hfin.shape.toks⟩

/-- Whenever `generateTokensToFile` returns a nil error, the file at `path`
holds the text of the tokens returned by `generateTokens`. -/
theorem generateTokensToFile_of_nil (dirOf : String → String) (numCPU : Nat)
    (path : String) (count : Int) (genFn : σ → Except ε String × σ) (s0 : σ)
    (sched : Nat → Nat) (fs fs' : FileSystem)
    (hio : generateTokensToFile dirOf numCPU path count genFn s0 sched fs = some (none, fs')) :
    ∃ out toks, generateTokens numCPU count genFn s0 sched = some out ∧
      out.err = none ∧ out.tokens = some toks ∧ toks.length = count.toNat ∧
      fs'.readFile path = some (joinLines toks) ∧
      (count ≤ 0 → fs'.readFile path = some "") ∧
      ((∀ t ∈ toks, '\n' ∉ t.data) →
        lines (joinLines toks) = toks ∧ (lines (joinLines toks)).length = count.toNat) := by
  unfold generateTokensToFile at hio
  cases hg : generateTokens numCPU count genFn s0 sched with
  | none => rw [hg] at hio; simp at hio
  | some out =>
    rw [hg] at hio
    simp only at hio
    cases he : out.err with
    | some err => rw [he] at hio; simp at hio
    | none =>
      rw [he] at hio
      simp only at hio
      obtain ⟨toks, ht, hlen⟩ := generateTokens_tokens_length numCPU count genFn s0 sched out hg he
      rw [ht] at hio
      simp only [Option.getD_some] at hio
      rcases h1 : MkdirAll (ε := ε) (dirOf path) fs with ⟨r1, fs1⟩
      rw [h1] at hio
      cases r1 with
      | some e => simp at hio
      | none =>
        simp only at hio
        rcases h2 : Create (ε := ε) (dirOf path) path fs1 with ⟨r2, fs2⟩
        rw [h2] at hio
        cases r2 with
        | some e => simp at hio
        | none =>
          simp only at hio
          rcases h3 : writeTokens (ε := ε) toks { path := path, buf := "" } fs2 with ⟨r3, w3, fs3⟩
          rw [h3] at hio
          cases r3 with
          | some e => simp at hio
          | none =>
            simp only at hio
            rcases h4 : Writer.Flush (ε := ε) w3 fs3 with ⟨r4, w4, fs4⟩
            rw [h4] at hio
            cases r4 with
            | some e => simp at hio
            | none =>
              simp only [Option.some.injEq, Prod.mk.injEq, true_and] at hio
              subst hio
              have s0' : Streamed path { path := path, buf := "" } fs2 "" :=
                ⟨rfl, "", Create_ok h2, rfl⟩
              have s1 := writeTokens_ok toks s0' h3
              have hread : fs4.readFile path = some (joinLines toks) := (Flush_ok s1 h4).2
              refine ⟨out, toks, rfl, he, ht, hlen, hread, ?_, ?_⟩
              · intro hc
                rw [Int.toNat_of_nonpos hc] at hlen
                rw [hread, List.length_eq_zero.1 hlen]
                rfl
              · intro hnl
                have := lines_joinLines toks hnl
                exact ⟨this, by rw [this, hlen]⟩

/-- For a producer that never fails `generateTokens` returns `count` tokens and a
nil error. -/
theorem generateTokens_ok (numCPU : Nat) (count : Int) (genFn : σ → Except ε String × σ)
    (s0 : σ) (sched : Nat → Nat) (hP : 1 ≤ numCPU)
    (hok : ∀ s, ∃ tok, (genFn s).1 = Except.ok tok) :
    ∃ out, generateTokens numCPU count genFn s0 sched = some out ∧ out.err = none := by
  rcases Int.le_or_lt count 0 with hc | hc
  · unfold generateTokens
    rw [if_pos hc]
    exact ⟨_, rfl, rfl⟩
  · obtain ⟨st, hrun, hfin⟩ := generateTokens_final numCPU count genFn s0 sched hP hc
    exact ⟨finish st, hrun, by rw [finish_err]; exact hfin.trace.no_error hok⟩

/-- C8: for every path, count, producer that never fails, scheduler and file
system, on at least one CPU, when the creation of the directory succeeds, the
creation of the file succeeds and the environment fails none of the writes,
`generateTokensToFile` returns a nil error and leaves the file at `path` with
exactly
`t₀ ++ "\n" ++ t₁ ++ "\n" ++ ...` for the tokens returned by `generateTokens`,
in order; there are `count` of them; for a count `≤ 0` the file exists and is
empty; and when no token contains a newline the lines of the file are the
tokens, so it has `count` lines. -/
theorem generateTokensToFile_content (dirOf : String → String) (numCPU : Nat)
    (path : String) (count : Int) (genFn : σ → Except ε String × σ) (s0 : σ)
    (sched : Nat → Nat) (fs fs1 fs2 : FileSystem) (hP : 1 ≤ numCPU)
    (hok : ∀ s, ∃ tok, (genFn s).1 = Except.ok tok)
    (hmk : MkdirAll (ε := ε) (dirOf path) fs = (none, fs1))
    (hcr : Create (ε := ε) (dirOf path) path fs1 = (none, fs2))
    (hwr : ∀ b ∈ fs2.faults, b = false) :
    ∃ out toks fs', generateTokens numCPU count genFn s0 sched = some out ∧
      out.err = none ∧ out.tokens = some toks ∧ toks.length = count.toNat ∧
      generateTokensToFile dirOf numCPU path count genFn s0 sched fs = some (none, fs') ∧
      fs'.readFile path = some (joinLines toks) ∧
      (count ≤ 0 → fs'.readFile path = some "") ∧
      ((∀ t ∈ toks, '\n' ∉ t.data) →
        lines (joinLines toks) = toks ∧ (lines (joinLines toks)).length = count.toNat) := by
  obtain ⟨out, hg, he⟩ := generateTokens_ok numCPU count genFn s0 sched hP hok
  obtain ⟨toks, ht, _⟩ := generateTokens_tokens_length numCPU count genFn s0 sched out hg he
  have hstream : Streamed path { path := path, buf := "" } fs2 "" :=
    ⟨rfl, "", Create_ok hcr, rfl⟩
  obtain ⟨w3, fs3, h3, q3⟩ := writeTokens_quiet (ε := ε) toks hwr hstream
  obtain ⟨w4, fs4, h4, _⟩ := Flush_quiet (ε := ε) q3 (writeTokens_ok toks hstream h3)
  have hio : generateTokensToFile dirOf numCPU path count genFn s0 sched fs =
      some (none, fs4) := by
    unfold generateTokensToFile
    rw [hg]
    simp only
    rw [he]
    simp only
    rw [hmk]
    simp only
    rw [hcr]
    simp only
    rw [ht, Option.getD_some, h3]
    simp only
    rw [h4]
  obtain ⟨out', toks', hg', he', ht', hlen, hread, hzero, hlines⟩ :=
    generateTokensToFile_of_nil dirOf numCPU path count genFn s0 sched fs fs4 hio
  rw [hg] at hg'
  cases hg'
  exact ⟨out, toks', fs4, hg, he', ht', hlen, hio, hread, hzero, hlines⟩

set_option maxRecDepth 100000

/-- C8, test witnesses: 123 tokens `"tok"` written below a fresh directory, as in
`TestGenerateTokensToFileWritesLines`, give a file of 123 lines; a count of 0, as
in `TestGenerateTokensToFileZeroCount`, gives a file that exists and is empty. -/
theorem generateTokensToFile_content_witness :
    (MkdirAll (ε := String) (parentDir "out/tokens.txt") ⟨[], [], []⟩ = (none, ⟨["out"], [], []⟩) ∧
      Create (ε := String) (parentDir "out/tokens.txt") "out/tokens.txt" ⟨["out"], [], []⟩ =
        (none, ⟨["out"], [("out/tokens.txt", "")], []⟩) ∧
      generateTokensToFile parentDir 4 "out/tokens.txt" 123 countingGen 0 (fun t => t)
          ⟨[], [], []⟩ =
        some (none, ⟨["out"], [("out/tokens.txt", joinLines (List.replicate 123 "tok"))], []⟩) ∧
      (lines (joinLines (List.replicate 123 "tok"))).length = 123 ∧
      generateTokensToFile parentDir 4 "out/zero.txt" 0 countingGen 0 (fun t => t)
          ⟨[], [], []⟩ =
        some (none, ⟨["out"], [("out/zero.txt", "")], []⟩)) ∧
    (∃ out toks fs', generateTokens 4 123 countingGen 0 (fun t => t) = some out ∧
      out.err = none ∧ out.tokens = some toks ∧ toks.length = (123 : Int).toNat ∧
      generateTokensToFile parentDir 4 "out/tokens.txt" 123 countingGen 0 (fun t => t)
          ⟨[], [], []⟩ = some (none, fs') ∧
      fs'.readFile "out/tokens.txt" = some (joinLines toks) ∧
      ((123 : Int) ≤ 0 → fs'.readFile "out/tokens.txt" = some "") ∧
      ((∀ t ∈ toks, '\n' ∉ t.data) →
        lines (joinLines toks) = toks ∧
          (lines (joinLines toks)).length = (123 : Int).toNat)) ∧
    (∃ out toks fs', generateTokens 4 0 countingGen 0 (fun t => t) = some out ∧
      out.err = none ∧ out.tokens = some toks ∧ toks.length = (0 : Int).toNat ∧
      generateTokensToFile parentDir 4 "out/zero.txt" 0 countingGen 0 (fun t => t)
          ⟨[], [], []⟩ = some (none, fs') ∧
      fs'.readFile "out/zero.txt" = some (joinLines toks) ∧
      ((0 : Int) ≤ 0 → fs'.readFile "out/zero.txt" = some "") ∧
      ((∀ t ∈ toks, '\n' ∉ t.data) →
        lines (joinLines toks) = toks ∧
          (lines (joinLines toks)).length = (0 : Int).toNat)) :=
  ⟨⟨by decide, by decide, by decide, by decide, by decide⟩,
    generateTokensToFile_content parentDir 4 "out/tokens.txt" 123 countingGen 0 (fun t => t)
      ⟨[], [], []⟩ ⟨["out"], [], []⟩ ⟨["out"], [("out/tokens.txt", "")], []⟩ (by decide)
      (fun _ => ⟨"tok", rfl⟩) (by decide) (by decide) (by decide),
    generateTokensToFile_content parentDir 4 "out/zero.txt" 0 countingGen 0 (fun t => t)
      ⟨[], [], []⟩ ⟨["out"], [], []⟩ ⟨["out"], [("out/zero.txt", "")], []⟩ (by decide)
      (fun _ => ⟨"tok", rfl⟩) (by decide) (by decide) (by decide)⟩

end FileClaims2

end JwtGen
